import Mathlib

/-!
gosh: a fixed-capacity hash map with separate chaining

A shallow embedding of `map.go` (package `gosh`) and a verification of the
properties its specification states about it.

Modelling conventions

* A Go `string` is an immutable byte sequence: `Key` is a list of bytes.
* `interface{}` values are `Option V`; `none` is Go's `nil` interface value.
* `uint32` fields are natural numbers; the increments and decrements of `len`
  are written with an explicit `% 2 ^ 32`.
* A bucket chain (`*node` linked through `next`) is the list of its nodes, head
  first. The map is the only owner of its nodes and `addNode` only ever links
  a freshly created node behind a node whose `next` is `nil`, so chains are
  finite and acyclic.
* A `float64` result is NaN, `+Inf` or the rational number it denotes; the one
  floating-point operation of the code, the division in `Load`, rounds the
  exact quotient to a 53-bit significand as IEEE 754 prescribes.
* Run-time panics and loops that do not finish are results of type `Fault`.
  The only loop that does not walk down a chain is the one in `addNode`; it is
  run with an explicit step budget (`fuel`).
-/

namespace Gosh

/-- A Go string: the sequence of its bytes. -/
abbrev Key := List (Fin 256)

/-- The bytes of a string literal made of ASCII characters, as the Go
conversion from string to byte slice yields them. -/
def ascii (s : String) : Key := s.data.map (fun ch => Fin.ofNat ch.toNat)

/-- Ways in which a call fails to return a value. -/
inductive Fault where
  /-- Go run-time panic: integer divide by zero. -/
  | divideByZero
  /-- Go run-time panic: index out of range. -/
  | indexOutOfRange
  /-- The step budget of a loop was used up before the loop returned. -/
  | outOfFuel
deriving DecidableEq, Repr

deriving instance DecidableEq for Except

/-- An entry of the hash map (`type node struct`). The `next` pointer is the
position of the node in the list that models its chain. -/
structure node (V : Type) where
  hash : Nat
  key : Key
  value : Option V
deriving DecidableEq, Repr

/-- The hash map object (`type Map struct`). -/
structure Map (V : Type) where
  len : Nat
  size : Nat
  buckets : List (List (node V))
deriving DecidableEq, Repr

/-- The 32-bit FNV offset basis (`hash/fnv`, `offset32`). -/
def offset32 : Nat := 2166136261

/-- The 32-bit FNV prime (`hash/fnv`, `prime32`). -/
def prime32 : Nat := 16777619

/-- Go standard library `fnv.New32a`, `Write` of the key bytes, `Sum32`: for
every byte, xor it into the state and multiply by the prime, modulo 2 ^ 32. -/
def fnv32a (key : Key) : Nat :=
  key.foldl (fun h b => ((h ^^^ b.val) * prime32) % 2 ^ 32) offset32

/-- `Initialize(s)`: a map of `s` empty buckets. -/
def Initialize {V : Type} (s : Nat) : Map V :=
  { len := 0, size := s, buckets := List.replicate s [] }

/-- `getHashAndIndex(key, size)`: the digest and the digest modulo `size`;
the modulo panics when `size` is 0. -/
def getHashAndIndex (key : Key) (size : Nat) : Except Fault (Nat × Nat) :=
  if size = 0 then .error .divideByZero
  else .ok (fnv32a key, fnv32a key % size)

/-- `getValueFromBucketChain(nodeChain, keyHash)`: the first node of the
chain whose hash is `keyHash`, or `none` (nil). -/
def getValueFromBucketChain {V : Type} : List (node V) → Nat → Option (node V)
  | [], _ => none
  | n :: next, keyHash =>
    if n.hash = keyHash then some n else getValueFromBucketChain next keyHash

/-- The assignment `node.value = value` of `Set`, where `node` is the result of
`getValueFromBucketChain`: the first node of the chain whose hash is `keyHash`
gets the new value, in place. -/
def assignValue {V : Type} (keyHash : Nat) (value : Option V) :
    List (node V) → List (node V)
  | [] => []
  | n :: next =>
    if n.hash = keyHash then { n with value := value } :: next
    else n :: assignValue keyHash value next

/-- `createNode(h, k, val)`. -/
def createNode {V : Type} (h : Nat) (k : Key) (val : Option V) : node V :=
  { hash := h, key := k, value := val }

/-- The `for` loop of `addNode`. `currNode` is the head of the chain and
`next` the nodes behind it (`currNode.next`). The loop body never advances
`currNode`: it links `n` and returns when `currNode.next` is nil, and otherwise
goes round again with the same `currNode`. -/
def addNodeLoop {V : Type} :
    Nat → node V → List (node V) → node V → Option (List (node V))
  | 0, _, _, _ => none
  | _ + 1, currNode, [], n => some [currNode, n]
  | fuel + 1, currNode, nx :: rest, n => addNodeLoop fuel currNode (nx :: rest) n

/-- `m.addNode(ind, n)`. -/
def Map.addNode {V : Type} (fuel : Nat) (m : Map V) (ind : Nat) (n : node V) :
    Except Fault (Map V) :=
  match m.buckets[ind]? with
  | none => .error .indexOutOfRange
  | some [] => .ok { m with buckets := m.buckets.set ind [n] }
  | some (currNode :: next) =>
    match addNodeLoop fuel currNode next n with
    | none => .error .outOfFuel
    | some chain => .ok { m with buckets := m.buckets.set ind chain }

/-- `m.Set(key, value)`: the returned boolean and the map after the call. -/
def Map.Set {V : Type} (fuel : Nat) (m : Map V) (key : Key) (value : Option V) :
    Except Fault (Bool × Map V) :=
  match getHashAndIndex key m.size with
  | .error e => .error e
  | .ok (keyHash, bucketIndex) =>
    match m.buckets[bucketIndex]? with
    | none => .error .indexOutOfRange
    | some chain =>
      match getValueFromBucketChain chain keyHash with
      | none =>
        if m.len = m.size then .ok (false, m)
        else
          match m.addNode fuel bucketIndex (createNode keyHash key value) with
          | .error e => .error e
          | .ok m' => .ok (true, { m' with len := (m'.len + 1) % 2 ^ 32 })
      | some _ =>
        .ok (true,
          { m with buckets := m.buckets.set bucketIndex (assignValue keyHash value chain) })

/-- `m.Get(key)`. -/
def Map.Get {V : Type} (m : Map V) (key : Key) : Except Fault (Option V) :=
  match getHashAndIndex key m.size with
  | .error e => .error e
  | .ok (keyHash, bucketIndex) =>
    match m.buckets[bucketIndex]? with
    | none => .error .indexOutOfRange
    | some chain =>
      match getValueFromBucketChain chain keyHash with
      | none => .ok none
      | some n => .ok n.value

/-- The `for nex != nil` loop of `Delete`, run on the nodes behind the head:
on a match the result is the value of the detached node and the chain that
remains behind the head. -/
def deleteLoop {V : Type} (keyHash : Nat) :
    List (node V) → Option (Option V × List (node V))
  | [] => none
  | nex :: rest =>
    if nex.hash = keyHash then some (nex.value, rest)
    else
      match deleteLoop keyHash rest with
      | none => none
      | some (v, rest') => some (v, nex :: rest')

/-- `m.Delete(key)`: the returned value and the map after the call. -/
def Map.Delete {V : Type} (m : Map V) (key : Key) : Except Fault (Option V × Map V) :=
  match getHashAndIndex key m.size with
  | .error e => .error e
  | .ok (keyHash, bucketIndex) =>
    match m.buckets[bucketIndex]? with
    | none => .error .indexOutOfRange
    | some [] => .ok (none, m)
    | some (n :: next) =>
      if n.hash = keyHash then
        .ok (n.value,
          { m with buckets := m.buckets.set bucketIndex next,
                   len := (m.len + 2 ^ 32 - 1) % 2 ^ 32 })
      else
        match deleteLoop keyHash next with
        | none => .ok (none, m)
        | some (v, next') =>
          .ok (v,
            { m with buckets := m.buckets.set bucketIndex (n :: next'),
                     len := (m.len + 2 ^ 32 - 1) % 2 ^ 32 })

/-- The `float64` values that the quotient of two `uint32` operands can be:
NaN (`0 / 0`), `+Inf` (`x / 0` with `x > 0`), or a finite number that is not
negative, kept as the rational number it denotes. -/
inductive Float64 where
  | NaN
  | posInf
  | finite (value : ℚ)
deriving DecidableEq

/-- The number of binary places of the quotient `n / d` that a 53-bit
significand holds: the least `s` with `2 ^ 52 <= n * 2 ^ s / d`. For `uint32`
operands with `n > 0` and `d > 0` the quotient lies between `2 ^ -32` and
`2 ^ 32`, so `s` lies between 21 and 84. -/
def float64Shift (n d : Nat) : Nat :=
  ((List.range 96).find? (fun s => decide (2 ^ 52 * d ≤ n * 2 ^ s))).getD 0

/-- `float64(n) / float64(d)` for `uint32` values `n` and `d`. The conversions
are exact (`n, d < 2 ^ 53`). The division follows IEEE 754: `0 / 0` is NaN,
`n / 0` is `+Inf`, and otherwise the exact quotient is rounded to the nearest
number with a 53-bit significand, a tie going to the even significand. With
`uint32` operands the quotient can neither overflow nor be subnormal. -/
def float64Div (n d : Nat) : Float64 :=
  if d = 0 then (if n = 0 then .NaN else .posInf)
  else if n = 0 then .finite 0
  else
    let s := float64Shift n d
    let q := n * 2 ^ s / d
    let r := n * 2 ^ s % d
    let q' := if d < 2 * r ∨ (2 * r = d ∧ q % 2 = 1) then q + 1 else q
    .finite ((q' : ℚ) / 2 ^ s)

/-- `m.Load()`: `float64(m.len) / float64(m.size)`. -/
def Map.Load {V : Type} (m : Map V) : Float64 := float64Div m.len m.size

/-- All entries stored in the map, bucket after bucket, each chain head first. -/
def Map.entries {V : Type} (m : Map V) : List (node V) := m.buckets.flatten

/-- The maps a caller can hold: the result of `Initialize(c)` followed by any
number of `Set` and `Delete` calls that returned. -/
inductive Reachable {V : Type} (c : Nat) : Map V → Prop
  | init : c < 2 ^ 32 → Reachable c (Initialize c)
  | set (m m' : Map V) (fuel : Nat) (key : Key) (value : Option V) (b : Bool) :
      Reachable c m → m.Set fuel key value = .ok (b, m') → Reachable c m'
  | delete (m m' : Map V) (key : Key) (r : Option V) :
      Reachable c m → m.Delete key = .ok (r, m') → Reachable c m'

/-- The map that `Initialize(2)` followed by `Set("costarring", 1)` yields.
The keys "costarring" and "liquid" have the same FNV-1a digest, 1582148253. -/
def collisionMap : Map Nat :=
  { len := 1, size := 2,
    buckets := [[], [{ hash := 1582148253, key := ascii "costarring", value := some 1 }]] }

/-- The map that `Initialize(3)` followed by `Set("a", 1)` and `Set("b", 2)`
yields. The digests of "a", "b" and "d" differ and are all 1 modulo 3. -/
def crowdedMap : Map Nat :=
  { len := 2, size := 3,
    buckets := [[], [{ hash := 3826002220, key := ascii "a", value := some 1 },
                     { hash := 3876335077, key := ascii "b", value := some 2 }], []] }

/-- The map that `Initialize(2)` followed by `Set("key1", 1)` and
`Set("key2", 2)` yields: it is full. -/
def fullMap : Map Nat :=
  { len := 2, size := 2,
    buckets := [[{ hash := 944401402, key := ascii "key2", value := some 2 }],
                [{ hash := 927623783, key := ascii "key1", value := some 1 }]] }

/-- The map that `Initialize(2)` followed by `Set("key1", 1)` yields. -/
def oneKeyMap : Map Nat :=
  { len := 1, size := 2,
    buckets := [[], [{ hash := 927623783, key := ascii "key1", value := some 1 }]] }

/-- The map that `Initialize(3)` followed by `Set("a", 1)` yields. -/
def oneLetterMap : Map Nat :=
  { len := 1, size := 3,
    buckets := [[], [{ hash := 3826002220, key := ascii "a", value := some 1 }], []] }

/-- The map `collisionMap` after `Set("liquid", 2)`: the entry of "costarring"
holds the new value. -/
def collisionMapAfterSet : Map Nat :=
  { len := 1, size := 2,
    buckets := [[], [{ hash := 1582148253, key := ascii "costarring", value := some 2 }]] }

/-- The map `collisionMap` after `Delete("liquid")`: the entry of "costarring"
is gone. -/
def collisionMapAfterDelete : Map Nat :=
  { len := 0, size := 2, buckets := [[], []] }

/-- A sequence of `Set` calls on a map, one call after the other, each run
with the step budget `fuel`: the booleans the calls returned, in order, and the
map after the last call. A call that does not return ends the sequence with its
fault. -/
def setAll {V : Type} (fuel : Nat) :
    Map V → List (Key × Option V) → Except Fault (List Bool × Map V)
  | m, [] => .ok ([], m)
  | m, (k, v) :: rest =>
    match m.Set fuel k v with
    | .error e => .error e
    | .ok (b, m') =>
      match setAll fuel m' rest with
      | .error e => .error e
      | .ok (bs, m'') => .ok (b :: bs, m'')

/-- The value last set for the key `k` in a sequence of `Set` calls, if the
key occurs in it. -/
def lastSet {V : Type} (k : Key) : List (Key × Option V) → Option (Option V)
  | [] => none
  | (k', v) :: rest =>
    match lastSet k rest with
    | some w => some w
    | none => if k' = k then some v else none

/-- The value last set, in a sequence of `Set` calls, for a key with the
digest `d`, if such a key occurs in it. -/
def lastSetDigest {V : Type} (d : Nat) : List (Key × Option V) → Option (Option V)
  | [] => none
  | (k', v) :: rest =>
    match lastSetDigest d rest with
    | some w => some w
    | none => if fnv32a k' = d then some v else none

/-- Two `Set` calls with different keys of the same digest. -/
def collidingCalls : List (Key × Option Nat) :=
  [(ascii "costarring", some 1), (ascii "liquid", some 2)]

/-- Three `Set` calls with different keys whose digests all fall into bucket 1
of a map of capacity 3. -/
def threeKeyCalls : List (Key × Option Nat) :=
  [(ascii "a", some 1), (ascii "b", some 2), (ascii "d", some 3)]

/-- The `Set` calls of the test `TestLoadFactor`: two new keys. -/
def twoKeyCalls : List (Key × Option Nat) :=
  [(ascii "key1", some 1), (ascii "key2", some 2)]

/-- The representation invariant of a map of capacity `c`. -/
structure WF {V : Type} (c : Nat) (m : Map V) : Prop where
  cap_lt : c < 2 ^ 32
  size_eq : m.size = c
  length_eq : m.buckets.length = c
  len_eq : m.len = m.entries.length
  len_le : m.len ≤ c
  hash_ok : ∀ (i : Nat) (chain : List (node V)), m.buckets[i]? = some chain →
    ∀ n ∈ chain, n.hash = fnv32a n.key ∧ n.hash % c = i
  nodup : ∀ (i : Nat) (chain : List (node V)), m.buckets[i]? = some chain →
    (chain.map node.hash).Nodup

end Gosh

namespace Gosh

variable {V : Type}

/-! ## Chains -/

theorem getValue_none_iff (chain : List (node V)) (h : Nat) :
    getValueFromBucketChain chain h = none ↔ ∀ n ∈ chain, n.hash ≠ h := by
  induction chain with
  | nil => simp [getValueFromBucketChain]
  | cons a t ih =>
    by_cases ha : a.hash = h
    · simp [getValueFromBucketChain, ha]
    · simp [getValueFromBucketChain, ha, ih]

theorem getValue_some {chain : List (node V)} {h : Nat} {n : node V}
    (hg : getValueFromBucketChain chain h = some n) : n ∈ chain ∧ n.hash = h := by
  induction chain with
  | nil => simp [getValueFromBucketChain] at hg
  | cons a t ih =>
    by_cases ha : a.hash = h
    · simp [getValueFromBucketChain, ha] at hg
      subst hg
      exact ⟨List.mem_cons_self _ _, ha⟩
    · simp [getValueFromBucketChain, ha] at hg
      exact ⟨List.mem_cons_of_mem _ (ih hg).1, (ih hg).2⟩

theorem getValue_of_mem_nodup {chain : List (node V)} {n : node V}
    (hn : n ∈ chain) (hd : (chain.map node.hash).Nodup) :
    getValueFromBucketChain chain n.hash = some n := by
  induction chain with
  | nil => simp at hn
  | cons a t ih =>
    simp only [List.map_cons, List.nodup_cons, List.mem_map, not_exists, not_and] at hd
    rcases List.mem_cons.1 hn with rfl | hn'
    · simp [getValueFromBucketChain]
    · have hne : a.hash ≠ n.hash := fun e => hd.1 n hn' e.symm
      simp [getValueFromBucketChain, hne, ih hn' hd.2]

theorem assignValue_map_hash (h : Nat) (v : Option V) (chain : List (node V)) :
    (assignValue h v chain).map node.hash = chain.map node.hash := by
  induction chain with
  | nil => rfl
  | cons a t ih =>
    by_cases ha : a.hash = h
    · simp [assignValue, ha]
    · simp [assignValue, ha, ih]

theorem assignValue_length (h : Nat) (v : Option V) (chain : List (node V)) :
    (assignValue h v chain).length = chain.length := by
  have := congrArg List.length (assignValue_map_hash h v chain)
  simpa using this

theorem assignValue_eq_map {h : Nat} (v : Option V) {chain : List (node V)}
    (hd : (chain.map node.hash).Nodup) :
    assignValue h v chain
      = chain.map (fun n => if n.hash = h then { n with value := v } else n) := by
  induction chain with
  | nil => rfl
  | cons a t ih =>
    simp only [List.map_cons, List.nodup_cons, List.mem_map, not_exists, not_and] at hd
    by_cases ha : a.hash = h
    · have : t.map (fun n => if n.hash = h then { n with value := v } else n) = t := by
        conv_rhs => rw [← List.map_id t]
        apply List.map_congr_left
        intro n hn
        have hne : n.hash ≠ h := fun e => hd.1 n hn (e.trans ha.symm)
        simp [hne]
      simp [assignValue, ha, this]
    · simp [assignValue, ha, ih hd.2]

theorem getValue_map_assign (h : Nat) (v : Option V) (chain : List (node V)) (h' : Nat) :
    getValueFromBucketChain
        (chain.map (fun n => if n.hash = h then { n with value := v } else n)) h'
      = (getValueFromBucketChain chain h').map
          (fun n => if n.hash = h then { n with value := v } else n) := by
  induction chain with
  | nil => rfl
  | cons a t ih =>
    by_cases ha : a.hash = h <;> by_cases hb : a.hash = h' <;>
      simp [getValueFromBucketChain, ha, hb, ih] <;> simp_all

theorem addNodeLoop_nil (fuel : Nat) (currNode n : node V) :
    addNodeLoop (fuel + 1) currNode [] n = some [currNode, n] := rfl

theorem addNodeLoop_cons (fuel : Nat) (currNode nx : node V) (rest : List (node V))
    (n : node V) : addNodeLoop fuel currNode (nx :: rest) n = none := by
  induction fuel with
  | zero => rfl
  | succ k ih => simpa [addNodeLoop] using ih

theorem addNodeLoop_some {fuel : Nat} {currNode n : node V} {next chain : List (node V)}
    (h : addNodeLoop fuel currNode next n = some chain) :
    next = [] ∧ chain = [currNode, n] := by
  cases next with
  | nil =>
    cases fuel with
    | zero => simp [addNodeLoop] at h
    | succ k => simp [addNodeLoop] at h; exact ⟨rfl, h.symm⟩
  | cons nx rest => simp [addNodeLoop_cons] at h

theorem deleteLoop_none_iff (h : Nat) (chain : List (node V)) :
    deleteLoop h chain = none ↔ ∀ n ∈ chain, n.hash ≠ h := by
  induction chain with
  | nil => simp [deleteLoop]
  | cons a t ih =>
    by_cases ha : a.hash = h
    · simp [deleteLoop, ha]
    · cases hd : deleteLoop h t with
      | none => simp [deleteLoop, ha, hd, ← ih]
      | some p =>
        have : ¬ ∀ n ∈ t, n.hash ≠ h := fun hall => by simp [ih.2 hall] at hd
        simp only [deleteLoop, ha, hd, if_false]
        constructor
        · intro hh; cases hh
        · intro hall; exact absurd (fun n hn => hall n (List.mem_cons_of_mem _ hn)) this

theorem deleteLoop_some {h : Nat} {chain chain' : List (node V)} {v : Option V}
    (hd : deleteLoop h chain = some (v, chain')) :
    ∃ l₁ x l₂, chain = l₁ ++ x :: l₂ ∧ chain' = l₁ ++ l₂ ∧ x.hash = h ∧ x.value = v
      ∧ ∀ n ∈ l₁, n.hash ≠ h := by
  induction chain generalizing chain' with
  | nil => simp [deleteLoop] at hd
  | cons a t ih =>
    by_cases ha : a.hash = h
    · simp [deleteLoop, ha] at hd
      exact ⟨[], a, t, by simp, by simp [hd.2], ha, hd.1, by simp⟩
    · cases hd' : deleteLoop h t with
      | none => simp [deleteLoop, ha, hd'] at hd
      | some p =>
        obtain ⟨v', t'⟩ := p
        simp [deleteLoop, ha, hd'] at hd
        obtain ⟨rfl, rfl⟩ := hd
        obtain ⟨l₁, x, l₂, e1, e2, e3, e4, e5⟩ := ih hd'
        refine ⟨a :: l₁, x, l₂, by simp [e1], by simp [e2], e3, e4, ?_⟩
        intro n hn
        rcases List.mem_cons.1 hn with rfl | hn'
        · exact ha
        · exact e5 n hn'

end Gosh

namespace Gosh

variable {V : Type}

/-! ## Buckets -/

theorem split_bucket {bs : List (List (node V))} {i : Nat} {chain : List (node V)}
    (h : bs[i]? = some chain) (x : List (node V)) :
    bs = bs.take i ++ chain :: bs.drop (i + 1)
      ∧ bs.set i x = bs.take i ++ x :: bs.drop (i + 1) := by
  obtain ⟨hi, hc⟩ := List.getElem?_eq_some.1 h
  refine ⟨?_, List.set_eq_take_cons_drop x hi⟩
  have h1 := List.set_eq_take_cons_drop chain hi
  have h2 : bs.set i chain = bs := by
    apply List.ext_getElem?
    intro j
    rw [List.getElem?_set]
    by_cases hj : i = j
    · subst hj; simp [hi, h]
    · simp [hj]
  rw [h2] at h1
  exact h1

theorem flatten_length_set {bs : List (List (node V))} {i : Nat} {chain : List (node V)}
    (h : bs[i]? = some chain) (x : List (node V)) :
    (bs.set i x).flatten.length + chain.length = bs.flatten.length + x.length := by
  obtain ⟨h1, h2⟩ := split_bucket h x
  rw [h2]
  conv_rhs => rw [h1]
  simp only [List.flatten_append, List.flatten_cons, List.length_append]
  omega

theorem mem_entries_iff (m : Map V) (n : node V) :
    n ∈ m.entries ↔ ∃ (i : Nat) (chain : List (node V)), m.buckets[i]? = some chain ∧ n ∈ chain := by
  unfold Map.entries
  rw [List.mem_flatten]
  constructor
  · rintro ⟨chain, hc, hn⟩
    obtain ⟨i, hi⟩ := List.mem_iff_getElem?.1 hc
    exact ⟨i, chain, hi, hn⟩
  · rintro ⟨i, chain, hi, hn⟩
    exact ⟨chain, List.mem_iff_getElem?.2 ⟨i, hi⟩, hn⟩

theorem fnv32a_lt (key : Key) : fnv32a key < 2 ^ 32 := by
  unfold fnv32a
  have : ∀ (l : Key) (a : Nat), a < 2 ^ 32 →
      l.foldl (fun h b => ((h ^^^ b.val) * prime32) % 2 ^ 32) a < 2 ^ 32 := by
    intro l
    induction l with
    | nil => intro a ha; simpa using ha
    | cons b t ih =>
      intro a _
      simp only [List.foldl_cons]
      exact ih _ (Nat.mod_lt _ (by norm_num))
  exact this key offset32 (by norm_num [offset32])

theorem WF.bucket {c : Nat} {m : Map V} (hw : WF c m) (hc : 0 < c) (h : Nat) :
    ∃ chain, m.buckets[h % c]? = some chain := by
  have hlt : h % c < m.buckets.length := by rw [hw.length_eq]; exact Nat.mod_lt _ hc
  exact ⟨m.buckets[h % c], List.getElem?_eq_getElem hlt⟩

theorem WF.lookup_none_iff {c : Nat} {m : Map V} (hw : WF c m) {h : Nat}
    {chain : List (node V)} (hb : m.buckets[h % c]? = some chain) :
    getValueFromBucketChain chain h = none ↔ ∀ n ∈ m.entries, n.hash ≠ h := by
  rw [getValue_none_iff]
  constructor
  · intro hall n hn
    obtain ⟨i, ch, hi, hm⟩ := (mem_entries_iff m n).1 hn
    intro e
    have hidx := (hw.hash_ok i ch hi n hm).2
    rw [e] at hidx
    rw [hidx] at hb
    rw [hi] at hb
    cases hb
    exact hall n hm e
  · intro hall n hn
    exact hall n ((mem_entries_iff m n).2 ⟨_, chain, hb, hn⟩)

theorem WF.hash_nodup_entries {c : Nat} {m : Map V} (hw : WF c m) {n n' : node V}
    (hn : n ∈ m.entries) (hn' : n' ∈ m.entries) (e : n.hash = n'.hash) : n = n' := by
  obtain ⟨i, ch, hi, hm⟩ := (mem_entries_iff m n).1 hn
  obtain ⟨j, ch', hj, hm'⟩ := (mem_entries_iff m n').1 hn'
  have h1 := (hw.hash_ok i ch hi n hm).2
  have h2 := (hw.hash_ok j ch' hj n' hm').2
  have hij : i = j := by rw [← h1, ← h2, e]
  subst hij
  rw [hi] at hj
  cases hj
  have g1 := getValue_of_mem_nodup hm (hw.nodup i ch hi)
  have g2 := getValue_of_mem_nodup hm' (hw.nodup i ch hi)
  rw [e, g2] at g1
  cases g1
  rfl

/-! ## The operations on a well-formed map -/

theorem getHashAndIndex_pos (k : Key) {c : Nat} (hc : 0 < c) :
    getHashAndIndex k c = .ok (fnv32a k, fnv32a k % c) := by
  have : c ≠ 0 := by omega
  simp [getHashAndIndex, this]

theorem WF.Get_eq {c : Nat} {m : Map V} (hw : WF c m) (hc : 0 < c) {k : Key}
    {chain : List (node V)} (hb : m.buckets[fnv32a k % c]? = some chain) :
    m.Get k = .ok ((getValueFromBucketChain chain (fnv32a k)).bind node.value) := by
  unfold Map.Get
  rw [hw.size_eq, getHashAndIndex_pos k hc]
  simp only [hb]
  cases getValueFromBucketChain chain (fnv32a k) <;> rfl

theorem WF.Delete_eq {c : Nat} {m : Map V} (hw : WF c m) (hc : 0 < c) {k : Key}
    {chain : List (node V)} (hb : m.buckets[fnv32a k % c]? = some chain) :
    m.Delete k = .ok
      (match deleteLoop (fnv32a k) chain with
       | none => (none, m)
       | some (v, chain') =>
         (v, { m with buckets := m.buckets.set (fnv32a k % c) chain',
                      len := (m.len + 2 ^ 32 - 1) % 2 ^ 32 })) := by
  unfold Map.Delete
  rw [hw.size_eq, getHashAndIndex_pos k hc]
  simp only [hb]
  cases chain with
  | nil => simp [deleteLoop]
  | cons a t =>
    by_cases ha : a.hash = fnv32a k
    · simp [deleteLoop, ha]
    · cases hd : deleteLoop (fnv32a k) t with
      | none => simp [deleteLoop, ha, hd]
      | some p => simp [deleteLoop, ha, hd]

theorem WF.Set_full {c : Nat} {m : Map V} (hw : WF c m) (hc : 0 < c) {k : Key}
    {chain : List (node V)} (hb : m.buckets[fnv32a k % c]? = some chain)
    (hg : getValueFromBucketChain chain (fnv32a k) = none) (hl : m.len = c)
    (fuel : Nat) (v : Option V) : m.Set fuel k v = .ok (false, m) := by
  unfold Map.Set
  rw [hw.size_eq, getHashAndIndex_pos k hc]
  simp only [hb, hg, hl, if_true]

theorem WF.Set_update {c : Nat} {m : Map V} (hw : WF c m) (hc : 0 < c) {k : Key}
    {chain : List (node V)} (hb : m.buckets[fnv32a k % c]? = some chain) {n : node V}
    (hg : getValueFromBucketChain chain (fnv32a k) = some n)
    (fuel : Nat) (v : Option V) :
    m.Set fuel k v = .ok (true,
      { m with buckets := m.buckets.set (fnv32a k % c) (assignValue (fnv32a k) v chain) }) := by
  unfold Map.Set
  rw [hw.size_eq, getHashAndIndex_pos k hc]
  simp only [hb, hg]

theorem WF.Set_insert {c : Nat} {m : Map V} (hw : WF c m) (hc : 0 < c) {k : Key}
    {chain : List (node V)} (hb : m.buckets[fnv32a k % c]? = some chain)
    (hg : getValueFromBucketChain chain (fnv32a k) = none) (hl : m.len ≠ c)
    (hlen : chain.length ≤ 1) (fuel : Nat) (v : Option V) :
    m.Set (fuel + 1) k v = .ok (true,
      { m with buckets := m.buckets.set (fnv32a k % c) (chain ++ [createNode (fnv32a k) k v]),
               len := (m.len + 1) % 2 ^ 32 }) := by
  unfold Map.Set Map.addNode
  rw [hw.size_eq, getHashAndIndex_pos k hc]
  simp only [hb, hg, hl, if_false]
  match chain, hlen with
  | [], _ => simp
  | [a], _ => simp [addNodeLoop]

theorem WF.Set_insert_nil {c : Nat} {m : Map V} (hw : WF c m) (hc : 0 < c) {k : Key}
    (hb : m.buckets[fnv32a k % c]? = some []) (hl : m.len ≠ c)
    (fuel : Nat) (v : Option V) :
    m.Set fuel k v = .ok (true,
      { m with buckets := m.buckets.set (fnv32a k % c) ([] ++ [createNode (fnv32a k) k v]),
               len := (m.len + 1) % 2 ^ 32 }) := by
  unfold Map.Set Map.addNode
  rw [hw.size_eq, getHashAndIndex_pos k hc]
  simp [hb, hl, getValueFromBucketChain]

theorem WF.Set_diverge {c : Nat} {m : Map V} (hw : WF c m) (hc : 0 < c) {k : Key}
    {chain : List (node V)} (hb : m.buckets[fnv32a k % c]? = some chain)
    (hg : getValueFromBucketChain chain (fnv32a k) = none) (hl : m.len ≠ c)
    (hlen : 2 ≤ chain.length) (fuel : Nat) (v : Option V) :
    m.Set fuel k v = .error .outOfFuel := by
  unfold Map.Set Map.addNode
  rw [hw.size_eq, getHashAndIndex_pos k hc]
  simp only [hb, hg, hl, if_false]
  match chain, hlen with
  | a :: b :: t, _ => simp [addNodeLoop_cons]

theorem WF.Set_zero_fuel {c : Nat} {m : Map V} (hw : WF c m) (hc : 0 < c) {k : Key}
    {chain : List (node V)} (hb : m.buckets[fnv32a k % c]? = some chain)
    (hg : getValueFromBucketChain chain (fnv32a k) = none) (hl : m.len ≠ c)
    (hlen : chain.length = 1) (v : Option V) :
    m.Set 0 k v = .error .outOfFuel := by
  unfold Map.Set Map.addNode
  rw [hw.size_eq, getHashAndIndex_pos k hc]
  simp only [hb, hg, hl, if_false]
  match chain, hlen with
  | [a], _ => simp [addNodeLoop]

/-- What a returned `Set` has done, by the three paths of the function. -/
theorem WF.Set_ok {c : Nat} {m m' : Map V} (hw : WF c m) (hc : 0 < c) {k : Key}
    {chain : List (node V)} (hb : m.buckets[fnv32a k % c]? = some chain)
    {fuel : Nat} {v : Option V} {b : Bool} (hs : m.Set fuel k v = .ok (b, m')) :
    (getValueFromBucketChain chain (fnv32a k) = none ∧ m.len = c ∧ b = false ∧ m' = m)
    ∨ ((∃ n, getValueFromBucketChain chain (fnv32a k) = some n) ∧ b = true
        ∧ m' = { m with buckets :=
                  m.buckets.set (fnv32a k % c) (assignValue (fnv32a k) v chain) })
    ∨ (getValueFromBucketChain chain (fnv32a k) = none ∧ m.len ≠ c ∧ b = true
        ∧ chain.length ≤ 1
        ∧ m' = { m with buckets :=
                  m.buckets.set (fnv32a k % c) (chain ++ [createNode (fnv32a k) k v]),
                        len := (m.len + 1) % 2 ^ 32 }) := by
  cases hg : getValueFromBucketChain chain (fnv32a k) with
  | some n =>
    rw [hw.Set_update hc hb hg] at hs
    simp only [Except.ok.injEq, Prod.mk.injEq] at hs
    exact Or.inr (Or.inl ⟨⟨n, rfl⟩, hs.1.symm, hs.2.symm⟩)
  | none =>
    by_cases hl : m.len = c
    · rw [hw.Set_full hc hb hg hl] at hs
      simp only [Except.ok.injEq, Prod.mk.injEq] at hs
      exact Or.inl ⟨rfl, hl, hs.1.symm, hs.2.symm⟩
    · by_cases hlen : chain.length ≤ 1
      · cases fuel with
        | zero =>
          match chain, hlen with
          | [], _ =>
            rw [hw.Set_insert_nil hc hb hl] at hs
            simp only [Except.ok.injEq, Prod.mk.injEq] at hs
            exact Or.inr (Or.inr ⟨rfl, hl, hs.1.symm, by simp, hs.2.symm⟩)
          | [a], _ =>
            rw [hw.Set_zero_fuel hc hb hg hl rfl] at hs
            cases hs
        | succ f =>
          rw [hw.Set_insert hc hb hg hl hlen] at hs
          simp only [Except.ok.injEq, Prod.mk.injEq] at hs
          exact Or.inr (Or.inr ⟨rfl, hl, hs.1.symm, hlen, hs.2.symm⟩)
      · rw [hw.Set_diverge hc hb hg hl (by omega)] at hs
        cases hs

end Gosh

namespace Gosh

variable {V : Type}

/-! ## The invariant holds in every reachable state -/

theorem WF_Initialize {c : Nat} (hc : c < 2 ^ 32) : WF c (Initialize c : Map V) where
  cap_lt := hc
  size_eq := rfl
  length_eq := by simp [Initialize]
  len_eq := by
    simp only [Initialize, Map.entries]
    induction c with
    | zero => rfl
    | succ k ih => simp [List.replicate_succ]
  len_le := by simp [Initialize]
  hash_ok := by
    intro i chain hi n hn
    simp only [Initialize, List.getElem?_replicate] at hi
    split at hi
    · cases hi; simp at hn
    · cases hi
  nodup := by
    intro i chain hi
    simp only [Initialize, List.getElem?_replicate] at hi
    split at hi
    · cases hi; simp
    · cases hi

/-- Replacing one chain keeps the invariant when the new chain is itself well
formed and `len` follows the change of the chain length. -/
theorem WF.update {c : Nat} {m : Map V} (hw : WF c m) {i : Nat} {chain : List (node V)}
    (hb : m.buckets[i]? = some chain) (chain' : List (node V)) (len' : Nat)
    (hk : ∀ n ∈ chain', n.hash = fnv32a n.key ∧ n.hash % c = i)
    (hn : (chain'.map node.hash).Nodup)
    (hl : len' + chain.length = m.len + chain'.length) (hle : len' ≤ c) :
    WF c { m with buckets := m.buckets.set i chain', len := len' } where
  cap_lt := hw.cap_lt
  size_eq := hw.size_eq
  length_eq := by simp [hw.length_eq]
  len_eq := by
    have h1 := flatten_length_set hb chain'
    have h2 := hw.len_eq
    simp only [Map.entries] at h2 ⊢
    omega
  len_le := hle
  hash_ok := by
    intro j ch hj n hnm
    simp only [List.getElem?_set] at hj
    by_cases hij : i = j
    · subst hij
      have hi : i < m.buckets.length := (List.getElem?_eq_some.1 hb).1
      simp only [if_true, hi] at hj
      cases hj
      exact hk n hnm
    · simp only [hij, if_false] at hj
      exact hw.hash_ok j ch hj n hnm
  nodup := by
    intro j ch hj
    simp only [List.getElem?_set] at hj
    by_cases hij : i = j
    · subst hij
      have hi : i < m.buckets.length := (List.getElem?_eq_some.1 hb).1
      simp only [if_true, hi] at hj
      cases hj
      exact hn
    · simp only [hij, if_false] at hj
      exact hw.nodup j ch hj

theorem WF.chain_length_le {c : Nat} {m : Map V} (hw : WF c m) {i : Nat}
    {chain : List (node V)} (hb : m.buckets[i]? = some chain) : chain.length ≤ m.len := by
  have h1 := split_bucket hb chain
  have h2 := hw.len_eq
  simp only [Map.entries] at h2
  rw [h1.1] at h2
  simp only [List.flatten_append, List.flatten_cons, List.length_append] at h2
  omega

theorem WF.Set_preserves {c : Nat} {m m' : Map V} (hw : WF c m) (hc : 0 < c) {k : Key}
    {fuel : Nat} {v : Option V} {b : Bool} (hs : m.Set fuel k v = .ok (b, m')) :
    WF c m' := by
  obtain ⟨chain, hb⟩ := hw.bucket hc (fnv32a k)
  rcases hw.Set_ok hc hb hs with ⟨_, _, _, rfl⟩ | ⟨_, _, rfl⟩ | ⟨hg, hl, _, hlen, rfl⟩
  · exact hw
  · have := hw.update hb (assignValue (fnv32a k) v chain) m.len ?_ ?_ ?_ hw.len_le
    · exact this
    · intro n hn
      have hmap : n.hash ∈ (assignValue (fnv32a k) v chain).map node.hash :=
        List.mem_map_of_mem _ hn
      rw [assignValue_eq_map v (hw.nodup _ _ hb)] at hn
      obtain ⟨n₀, hn₀, rfl⟩ := List.mem_map.1 hn
      have := hw.hash_ok _ _ hb n₀ hn₀
      by_cases e : n₀.hash = fnv32a k <;> simpa [e] using this
    · rw [assignValue_map_hash]; exact hw.nodup _ _ hb
    · rw [assignValue_length]
  · have hlt : m.len < c := lt_of_le_of_ne hw.len_le hl
    have hmod : (m.len + 1) % 2 ^ 32 = m.len + 1 :=
      Nat.mod_eq_of_lt (by have := hw.cap_lt; omega)
    rw [hmod]
    refine hw.update hb _ _ ?_ ?_ ?_ (by omega)
    · intro n hn
      rcases List.mem_append.1 hn with h1 | h1
      · exact hw.hash_ok _ _ hb n h1
      · simp only [List.mem_singleton] at h1
        subst h1
        exact ⟨rfl, rfl⟩
    · rw [List.map_append, List.nodup_append]
      refine ⟨hw.nodup _ _ hb, by simp, ?_⟩
      intro a ha hb'
      simp only [List.map_cons, List.map_nil, List.mem_singleton, createNode] at hb'
      obtain ⟨n, hn, rfl⟩ := List.mem_map.1 ha
      exact (getValue_none_iff chain _).1 hg n hn hb'
    · simp; omega

theorem WF.Delete_preserves {c : Nat} {m m' : Map V} (hw : WF c m) (hc : 0 < c) {k : Key}
    {r : Option V} (hd : m.Delete k = .ok (r, m')) : WF c m' := by
  obtain ⟨chain, hb⟩ := hw.bucket hc (fnv32a k)
  rw [hw.Delete_eq hc hb] at hd
  cases hl : deleteLoop (fnv32a k) chain with
  | none =>
    simp only [hl, Except.ok.injEq, Prod.mk.injEq] at hd
    rw [← hd.2]; exact hw
  | some p =>
    obtain ⟨v, chain'⟩ := p
    simp only [hl, Except.ok.injEq, Prod.mk.injEq] at hd
    rw [← hd.2]
    obtain ⟨l₁, x, l₂, e1, e2, _, _, _⟩ := deleteLoop_some hl
    have hlen := hw.chain_length_le hb
    have hpos : 1 ≤ m.len := by rw [e1] at hlen; simp at hlen; omega
    have hlt : m.len < 2 ^ 32 := by have := hw.len_le; have := hw.cap_lt; omega
    have hmod : (m.len + 2 ^ 32 - 1) % 2 ^ 32 = m.len - 1 := by
      have : m.len + 2 ^ 32 - 1 = (m.len - 1) + 2 ^ 32 := by omega
      rw [this, Nat.add_mod_right]
      exact Nat.mod_eq_of_lt (by omega)
    rw [hmod]
    refine hw.update hb _ _ ?_ ?_ ?_ (by have := hw.len_le; omega)
    · intro n hn
      refine hw.hash_ok _ _ hb n ?_
      rw [e1]; rw [e2] at hn
      rcases List.mem_append.1 hn with h1 | h1
      · exact List.mem_append_left _ h1
      · exact List.mem_append_right _ (List.mem_cons_of_mem _ h1)
    · have hnd := hw.nodup _ _ hb
      rw [e1] at hnd; rw [e2]
      simp only [List.map_append, List.map_cons] at hnd ⊢
      exact (List.nodup_append.1 hnd).1 |> fun h1 =>
        List.nodup_append.2 ⟨h1, ((List.nodup_append.1 hnd).2.1).of_cons,
          fun a ha hb' => (List.nodup_append.1 hnd).2.2 ha (List.mem_cons_of_mem _ hb')⟩
    · rw [e1, e2]; simp; omega

theorem Set_size_zero {m : Map V} (h0 : m.size = 0) (fuel : Nat) (k : Key) (v : Option V) :
    m.Set fuel k v = .error .divideByZero := by
  simp [Map.Set, getHashAndIndex, h0]

theorem Delete_size_zero {m : Map V} (h0 : m.size = 0) (k : Key) :
    m.Delete k = .error .divideByZero := by
  simp [Map.Delete, getHashAndIndex, h0]

theorem Get_size_zero {m : Map V} (h0 : m.size = 0) (k : Key) :
    m.Get k = .error .divideByZero := by
  simp [Map.Get, getHashAndIndex, h0]

theorem Reachable.wf {c : Nat} {m : Map V} (hr : Reachable c m) : WF c m := by
  induction hr with
  | init h => exact WF_Initialize h
  | set _ _ _ _ _ _ _ hs ih =>
    rcases Nat.eq_zero_or_pos c with h0 | hc
    · rw [Set_size_zero (by rw [ih.size_eq, h0])] at hs
      cases hs
    · exact ih.Set_preserves hc hs
  | delete _ _ _ _ _ hd ih =>
    rcases Nat.eq_zero_or_pos c with h0 | hc
    · rw [Delete_size_zero (by rw [ih.size_eq, h0])] at hd
      cases hd
    · exact ih.Delete_preserves hc hd

end Gosh

namespace Gosh

variable {V : Type}

/-! ## What `Get` sees after `Set` and `Delete` -/

theorem getValue_append_of_none {l₁ : List (node V)} {h : Nat}
    (hn : getValueFromBucketChain l₁ h = none) (l₂ : List (node V)) :
    getValueFromBucketChain (l₁ ++ l₂) h = getValueFromBucketChain l₂ h := by
  induction l₁ with
  | nil => rfl
  | cons a t ih =>
    by_cases ha : a.hash = h
    · simp [getValueFromBucketChain, ha] at hn
    · simp only [getValueFromBucketChain, ha, if_false] at hn
      simp [getValueFromBucketChain, ha, ih hn]

theorem getValue_append_of_some {l₁ : List (node V)} {h : Nat} {n : node V}
    (hn : getValueFromBucketChain l₁ h = some n) (l₂ : List (node V)) :
    getValueFromBucketChain (l₁ ++ l₂) h = some n := by
  induction l₁ with
  | nil => simp [getValueFromBucketChain] at hn
  | cons a t ih =>
    by_cases ha : a.hash = h
    · simpa [getValueFromBucketChain, ha] using hn
    · simp only [getValueFromBucketChain, ha, if_false] at hn
      simp [getValueFromBucketChain, ha, ih hn]

theorem getValue_append (l₁ l₂ : List (node V)) (h : Nat) :
    getValueFromBucketChain (l₁ ++ l₂) h
      = (getValueFromBucketChain l₁ h).or (getValueFromBucketChain l₂ h) := by
  cases hg : getValueFromBucketChain l₁ h with
  | none => simp [getValue_append_of_none hg]
  | some n => simp [getValue_append_of_some hg]

theorem Get_eq_of {c : Nat} {m : Map V} (hs : m.size = c) (hc : 0 < c) {k : Key}
    {chain : List (node V)} (hb : m.buckets[fnv32a k % c]? = some chain) :
    m.Get k = .ok ((getValueFromBucketChain chain (fnv32a k)).bind node.value) := by
  unfold Map.Get
  rw [hs, getHashAndIndex_pos k hc]
  simp only [hb]
  cases getValueFromBucketChain chain (fnv32a k) <;> rfl

/-- `Get` after a bucket has been replaced: the new chain is searched when the
key falls into that bucket, the old map otherwise. -/
theorem Get_set_bucket {c : Nat} {m : Map V} (hw : WF c m) (hc : 0 < c) {i : Nat}
    {chain : List (node V)} (hb : m.buckets[i]? = some chain) (chain' : List (node V))
    (len' : Nat) (k : Key) :
    ({ m with buckets := m.buckets.set i chain', len := len' } : Map V).Get k
      = if fnv32a k % c = i
        then .ok ((getValueFromBucketChain chain' (fnv32a k)).bind node.value)
        else m.Get k := by
  have hi : i < m.buckets.length := (List.getElem?_eq_some.1 hb).1
  have hs' : ({ m with buckets := m.buckets.set i chain', len := len' } : Map V).size = c :=
    hw.size_eq
  by_cases hk : fnv32a k % c = i
  · rw [if_pos hk]
    apply Get_eq_of hs' hc
    simp [hk, hi]
  · rw [if_neg hk]
    obtain ⟨ch, hch⟩ := hw.bucket hc (fnv32a k)
    rw [hw.Get_eq hc hch]
    apply Get_eq_of hs' hc
    simp only [List.getElem?_set]
    rw [if_neg (fun e => hk e.symm)]
    exact hch

theorem WF.Get_after_Set_same {c : Nat} {m m' : Map V} (hw : WF c m) (hc : 0 < c)
    {k : Key} {fuel : Nat} {v : Option V} (hs : m.Set fuel k v = .ok (true, m')) :
    m'.Get k = .ok v := by
  obtain ⟨chain, hb⟩ := hw.bucket hc (fnv32a k)
  rcases hw.Set_ok hc hb hs with ⟨_, _, hf, _⟩ | ⟨⟨n, hg⟩, _, rfl⟩ | ⟨hg, _, _, _, rfl⟩
  · cases hf
  · rw [Get_set_bucket hw hc hb _ m.len k, if_pos rfl,
      assignValue_eq_map v (hw.nodup _ _ hb), getValue_map_assign, hg]
    simp [(getValue_some hg).2]
  · rw [Get_set_bucket hw hc hb _ _ k, if_pos rfl, getValue_append_of_none hg]
    simp [getValueFromBucketChain, createNode]

theorem WF.Get_after_Set_other {c : Nat} {m m' : Map V} (hw : WF c m) (hc : 0 < c)
    {k k' : Key} {fuel : Nat} {v : Option V} {b : Bool}
    (hs : m.Set fuel k v = .ok (b, m')) (hne : fnv32a k' ≠ fnv32a k) :
    m'.Get k' = m.Get k' := by
  obtain ⟨chain, hb⟩ := hw.bucket hc (fnv32a k)
  rcases hw.Set_ok hc hb hs with ⟨_, _, _, rfl⟩ | ⟨⟨n, hg⟩, _, rfl⟩ | ⟨hg, _, _, _, rfl⟩
  · rfl
  · rw [Get_set_bucket hw hc hb _ m.len k']
    split
    · rename_i hk
      rw [← hk] at hb
      rw [hw.Get_eq hc hb, assignValue_eq_map v (hw.nodup _ _ hb), getValue_map_assign]
      cases hg' : getValueFromBucketChain chain (fnv32a k') with
      | none => rfl
      | some n' =>
        have := (getValue_some hg').2
        simp [this, hne]
    · rfl
  · rw [Get_set_bucket hw hc hb _ _ k']
    split
    · rename_i hk
      rw [← hk] at hb
      rw [hw.Get_eq hc hb, getValue_append]
      have : getValueFromBucketChain [createNode (fnv32a k) k v] (fnv32a k') = none := by
        simp [getValueFromBucketChain, createNode, hne.symm]
      rw [this]
      simp
    · rfl

end Gosh

namespace Gosh

variable {V : Type}

/-- What `Delete` does on a well-formed map, in terms of the chain of the key:
either no node of the chain has the digest and nothing changes, or the chain
splits around the first such node, which is taken out. -/
theorem WF.Delete_ok {c : Nat} {m m' : Map V} (hw : WF c m) (hc : 0 < c) {k : Key}
    {chain : List (node V)} (hb : m.buckets[fnv32a k % c]? = some chain)
    {r : Option V} (hd : m.Delete k = .ok (r, m')) :
    (getValueFromBucketChain chain (fnv32a k) = none ∧ r = none ∧ m' = m)
    ∨ (∃ l₁ x l₂, chain = l₁ ++ x :: l₂ ∧ x.hash = fnv32a k ∧ r = x.value
        ∧ getValueFromBucketChain chain (fnv32a k) = some x
        ∧ getValueFromBucketChain (l₁ ++ l₂) (fnv32a k) = none
        ∧ m.len = m'.len + 1
        ∧ m' = { m with buckets := m.buckets.set (fnv32a k % c) (l₁ ++ l₂),
                        len := (m.len + 2 ^ 32 - 1) % 2 ^ 32 }) := by
  rw [hw.Delete_eq hc hb] at hd
  cases hl : deleteLoop (fnv32a k) chain with
  | none =>
    simp only [hl, Except.ok.injEq, Prod.mk.injEq] at hd
    refine Or.inl ⟨?_, hd.1.symm, hd.2.symm⟩
    rw [getValue_none_iff]
    exact (deleteLoop_none_iff _ _).1 hl
  | some p =>
    obtain ⟨v, chain'⟩ := p
    simp only [hl, Except.ok.injEq, Prod.mk.injEq] at hd
    obtain ⟨l₁, x, l₂, e1, e2, e3, e4, e5⟩ := deleteLoop_some hl
    subst e2
    have hlen := hw.chain_length_le hb
    have hpos : 1 ≤ m.len := by rw [e1] at hlen; simp at hlen; omega
    have hlt : m.len < 2 ^ 32 := by have := hw.len_le; have := hw.cap_lt; omega
    have hmod : (m.len + 2 ^ 32 - 1) % 2 ^ 32 = m.len - 1 := by
      have : m.len + 2 ^ 32 - 1 = (m.len - 1) + 2 ^ 32 := by omega
      rw [this, Nat.add_mod_right]
      exact Nat.mod_eq_of_lt (by omega)
    have hl1 : getValueFromBucketChain l₁ (fnv32a k) = none :=
      (getValue_none_iff _ _).2 e5
    have hnd := hw.nodup _ _ hb
    rw [e1] at hnd
    simp only [List.map_append, List.map_cons] at hnd
    have hnd2 := (List.nodup_append.1 hnd).2.1
    simp only [List.nodup_cons, List.mem_map, not_exists, not_and] at hnd2
    refine Or.inr ⟨l₁, x, l₂, e1, e3, by rw [← hd.1, e4], ?_, ?_, ?_, hd.2.symm⟩
    · rw [e1, getValue_append_of_none hl1]
      simp [getValueFromBucketChain, e3]
    · rw [getValue_append_of_none hl1, getValue_none_iff]
      intro n hn e
      exact hnd2.1 n hn (e.trans e3.symm)
    · rw [← hd.2]
      simp only [hmod]
      omega

theorem WF.Get_before_Delete {c : Nat} {m m' : Map V} (hw : WF c m) (hc : 0 < c)
    {k : Key} {r : Option V} (hd : m.Delete k = .ok (r, m')) : m.Get k = .ok r := by
  obtain ⟨chain, hb⟩ := hw.bucket hc (fnv32a k)
  rw [hw.Get_eq hc hb]
  rcases hw.Delete_ok hc hb hd with ⟨hg, rfl, _⟩ | ⟨l₁, x, l₂, _, _, rfl, hg, _⟩
  · rw [hg]; rfl
  · rw [hg]; rfl

theorem WF.Get_after_Delete_same {c : Nat} {m m' : Map V} (hw : WF c m) (hc : 0 < c)
    {k : Key} {r : Option V} (hd : m.Delete k = .ok (r, m')) : m'.Get k = .ok none := by
  obtain ⟨chain, hb⟩ := hw.bucket hc (fnv32a k)
  rcases hw.Delete_ok hc hb hd with ⟨hg, _, rfl⟩ | ⟨l₁, x, l₂, _, _, _, _, hg, _, rfl⟩
  · rw [hw.Get_eq hc hb, hg]; rfl
  · rw [Get_set_bucket hw hc hb _ _ k, if_pos rfl, hg]; rfl

theorem getValue_remove_other {l₁ l₂ : List (node V)} {x : node V} {h' : Nat}
    (hne : x.hash ≠ h') :
    getValueFromBucketChain (l₁ ++ l₂) h' = getValueFromBucketChain (l₁ ++ x :: l₂) h' := by
  rw [getValue_append, getValue_append]
  simp [getValueFromBucketChain, hne]

theorem WF.Get_after_Delete_other {c : Nat} {m m' : Map V} (hw : WF c m) (hc : 0 < c)
    {k k' : Key} {r : Option V} (hd : m.Delete k = .ok (r, m'))
    (hne : fnv32a k' ≠ fnv32a k) : m'.Get k' = m.Get k' := by
  obtain ⟨chain, hb⟩ := hw.bucket hc (fnv32a k)
  rcases hw.Delete_ok hc hb hd with ⟨_, _, rfl⟩ | ⟨l₁, x, l₂, e1, e3, _, _, _, _, rfl⟩
  · rfl
  · rw [Get_set_bucket hw hc hb _ _ k']
    split
    · rename_i hk
      rw [← hk] at hb
      rw [hw.Get_eq hc hb, e1, getValue_remove_other (by rw [e3]; exact hne.symm)]
    · rfl

/-! ## Stored keys and stored digests -/

theorem WF.mem_entries_hash {c : Nat} {m : Map V} (hw : WF c m) {n : node V}
    (hn : n ∈ m.entries) : n.hash = fnv32a n.key := by
  obtain ⟨i, ch, hi, hm⟩ := (mem_entries_iff m n).1 hn
  exact (hw.hash_ok i ch hi n hm).1

/-- A stored entry is found by a search for its digest in the chain of its
bucket. -/
theorem WF.lookup_of_mem {c : Nat} {m : Map V} (hw : WF c m) {n : node V}
    (hn : n ∈ m.entries) {chain : List (node V)}
    (hb : m.buckets[n.hash % c]? = some chain) :
    getValueFromBucketChain chain n.hash = some n := by
  obtain ⟨i, ch, hi, hm⟩ := (mem_entries_iff m n).1 hn
  have hidx := (hw.hash_ok i ch hi n hm).2
  rw [hidx, hi] at hb
  have hch : ch = chain := Option.some.inj hb
  rw [← hch]
  exact getValue_of_mem_nodup hm (hw.nodup i ch hi)

end Gosh

namespace Gosh

variable {V : Type}

/-! ## Concrete maps -/

theorem collisionMap_reachable : Reachable 2 collisionMap :=
  Reachable.set (Initialize 2) collisionMap 1 (ascii "costarring") (some 1) true
    (Reachable.init (by norm_num)) (by decide)

theorem oneLetterMap_reachable : Reachable 3 oneLetterMap :=
  Reachable.set (Initialize 3) oneLetterMap 1 (ascii "a") (some 1) true
    (Reachable.init (by norm_num)) (by decide)

theorem crowdedMap_reachable : Reachable 3 crowdedMap :=
  Reachable.set oneLetterMap crowdedMap 1 (ascii "b") (some 2) true
    oneLetterMap_reachable (by decide)

theorem oneKeyMap_reachable : Reachable 2 oneKeyMap :=
  Reachable.set (Initialize 2) oneKeyMap 1 (ascii "key1") (some 1) true
    (Reachable.init (by norm_num)) (by decide)

theorem fullMap_reachable : Reachable 2 fullMap :=
  Reachable.set oneKeyMap fullMap 1 (ascii "key2") (some 2) true
    oneKeyMap_reachable (by decide)

/-! ## C2: `Set` returns false exactly on a full map without a match -/

/-- C2. In a map reachable from `Initialize(c)`, `c > 0`: when no stored entry
has the digest of `k` and `len == size`, `Set(k, v)` returns false, whatever the
step budget, and the map is the one before the call; and whenever `Set(k, v)`
returns false, no stored entry has the digest of `k`, `len == size`, and the
map after the call is the map before it. -/
theorem Set_false_iff_full {c : Nat} {m : Map V} (hc : 0 < c) (hr : Reachable c m)
    (k : Key) (v : Option V) :
    (((∀ n ∈ m.entries, n.hash ≠ fnv32a k) ∧ m.len = m.size) →
        ∀ fuel, m.Set fuel k v = .ok (false, m))
    ∧ (∀ fuel m', m.Set fuel k v = .ok (false, m') →
        ((∀ n ∈ m.entries, n.hash ≠ fnv32a k) ∧ m.len = m.size) ∧ m' = m
          ∧ m'.Load = m.Load ∧ ∀ k', m'.Get k' = m.Get k') := by
  have hw := hr.wf
  obtain ⟨chain, hb⟩ := hw.bucket hc (fnv32a k)
  constructor
  · rintro ⟨hno, hlen⟩ fuel
    exact hw.Set_full hc hb ((hw.lookup_none_iff hb).2 hno) (hlen.trans hw.size_eq) fuel v
  · intro fuel m' hs
    rcases hw.Set_ok hc hb hs with ⟨hg, hl, _, rfl⟩ | ⟨_, hf, _⟩ | ⟨_, _, hf, _⟩
    · exact ⟨⟨(hw.lookup_none_iff hb).1 hg, hl.trans hw.size_eq.symm⟩, rfl, rfl,
        fun _ => rfl⟩
    · cases hf
    · cases hf

/-- C2, at the full map of capacity 2 that holds "key1" and "key2":
`Set("key3", 3)` returns false and leaves the map as it was. -/
theorem Set_false_iff_full_witness :
    fullMap.Set 0 (ascii "key3") (some 3) = .ok (false, fullMap) :=
  (Set_false_iff_full (by decide) fullMap_reachable
    (ascii "key3") (some 3)).1 (by decide) 0

end Gosh

namespace Gosh

variable {V : Type}

/-! ## C3: `Set` of a key that is not stored -/

/-- C3 fails on the code, in two ways. In the reachable map of capacity 2 that
holds only "costarring" (`len` 1, below `size` 2), no entry has the key
"liquid"; yet `Set("liquid", 2)` returns true without increasing `len`: it
finds the entry of "costarring" by its digest, which "liquid" shares, and
overwrites the value of that entry, whose key stays "costarring". And in the
reachable map of capacity 3 that holds "a" and "b" (`len` 2, below `size` 3), no
entry has the key "d" or its digest, and `Set("d", 3)` returns nothing at all:
no step budget is enough for the loop of `addNode`. -/
theorem Set_new_key_fails :
    Reachable 2 collisionMap ∧ collisionMap.len < collisionMap.size
      ∧ (∀ n ∈ collisionMap.entries, n.key ≠ ascii "liquid")
      ∧ collisionMap.Set 1 (ascii "liquid") (some 2) = .ok (true, collisionMapAfterSet)
      ∧ collisionMapAfterSet.len ≠ collisionMap.len + 1
      ∧ (∀ n ∈ collisionMapAfterSet.entries, n.key ≠ ascii "liquid")
      ∧ Reachable 3 crowdedMap ∧ crowdedMap.len < crowdedMap.size
      ∧ (∀ n ∈ crowdedMap.entries, n.key ≠ ascii "d" ∧ n.hash ≠ fnv32a (ascii "d"))
      ∧ ∀ fuel, crowdedMap.Set fuel (ascii "d") (some 3) = .error .outOfFuel :=
  ⟨collisionMap_reachable, by decide, by decide, by decide, by decide, by decide,
    crowdedMap_reachable, by decide, by decide, fun fuel =>
    crowdedMap_reachable.wf.Set_diverge (k := ascii "d") (by decide)
      (show crowdedMap.buckets[fnv32a (ascii "d") % 3]?
          = some (crowdedMap.buckets.getD 1 []) by decide)
      (by decide) (by decide) (by decide) fuel (some 3)⟩

/-- What `Set` does guarantee for an insertion. In a map reachable from
`Initialize(c)`, `c > 0`, with `len < size`, for a key `k` whose digest no
stored entry has: whenever `Set(k, v)` returns, it returns true, `len` has grown
by exactly 1 and `Get(k)` on the result returns `v`; and it does return, with
any positive step budget, when the chain of the bucket of `k` holds at most one
entry. -/
theorem Set_new_digest {c : Nat} {m : Map V} (hc : 0 < c) (hr : Reachable c m)
    (hlt : m.len < m.size) (k : Key) (v : Option V)
    (hnew : ∀ n ∈ m.entries, n.hash ≠ fnv32a k) :
    (∀ fuel b m', m.Set fuel k v = .ok (b, m') →
        b = true ∧ m'.len = m.len + 1 ∧ m'.Get k = .ok v)
    ∧ (∀ chain, m.buckets[fnv32a k % m.size]? = some chain → chain.length ≤ 1 →
        ∀ fuel, ∃ m', m.Set (fuel + 1) k v = .ok (true, m')) := by
  have hw := hr.wf
  obtain ⟨chain, hb⟩ := hw.bucket hc (fnv32a k)
  have hg := (hw.lookup_none_iff hb).2 hnew
  have hne : m.len ≠ c := by have := hw.size_eq; omega
  constructor
  · intro fuel b m' hs
    rcases hw.Set_ok hc hb hs with ⟨_, hl, _, _⟩ | ⟨⟨n, hn⟩, _, _⟩ | ⟨_, _, hb', _, hm'⟩
    · exact absurd hl hne
    · rw [hg] at hn; cases hn
    · subst hb'
      refine ⟨rfl, ?_, hw.Get_after_Set_same hc hs⟩
      rw [hm']
      exact Nat.mod_eq_of_lt (by have := hw.cap_lt; have := hw.size_eq; omega)
  · intro chain' hb' hlen fuel
    rw [hw.size_eq, hb] at hb'
    cases hb'
    exact ⟨_, hw.Set_insert hc hb hg hne hlen fuel v⟩

/-! ## C6: `Delete` of a key that is not stored -/

/-- C6 fails on the code. In the reachable map that holds only "costarring",
the key "liquid" is the key of no stored entry; yet `Delete("liquid")` returns
the value 1 of "costarring" and not nil, removes that entry and takes `len`
from 1 to 0: `Delete` finds the entry by the digest the two keys share and never
compares the stored key. -/
theorem Delete_absent_key_fails :
    Reachable 2 collisionMap
      ∧ (∀ n ∈ collisionMap.entries, n.key ≠ ascii "liquid")
      ∧ collisionMap.Delete (ascii "liquid") = .ok (some 1, collisionMapAfterDelete)
      ∧ collisionMapAfterDelete.len ≠ collisionMap.len
      ∧ collisionMapAfterDelete.entries = [] :=
  ⟨collisionMap_reachable, by decide, by decide, by decide, by decide⟩

/-- What `Delete` does guarantee for an absent key. In a map reachable from
`Initialize(c)`, `c > 0`, for a key `k` whose digest no stored entry has,
`Delete(k)` returns nil and leaves the map, and with it `len`, unchanged. -/
theorem Delete_absent_digest {c : Nat} {m : Map V} (hc : 0 < c) (hr : Reachable c m)
    (k : Key) (hno : ∀ n ∈ m.entries, n.hash ≠ fnv32a k) :
    m.Delete k = .ok (none, m) := by
  have hw := hr.wf
  obtain ⟨chain, hb⟩ := hw.bucket hc (fnv32a k)
  have hg := (hw.lookup_none_iff hb).2 hno
  rw [hw.Delete_eq hc hb, (deleteLoop_none_iff _ _).2 ((getValue_none_iff _ _).1 hg)]

/-! ## C7: `Get` of a key that is not stored -/

/-- C7 fails on the code. In the reachable map that holds only "costarring", no
stored entry has "liquid" as its key; yet `Get("liquid")` returns 1, the value
of "costarring", and not nil: the lookup compares the digest only, and the two
keys share theirs. -/
theorem Get_absent_key_fails :
    Reachable 2 collisionMap
      ∧ (∀ n ∈ collisionMap.entries, n.key ≠ ascii "liquid")
      ∧ fnv32a (ascii "liquid") = fnv32a (ascii "costarring")
      ∧ collisionMap.Get (ascii "liquid") = .ok (some 1) :=
  ⟨collisionMap_reachable, by decide, by decide, by decide⟩

/-- What `Get` does guarantee for an absent key. In a map reachable from
`Initialize(c)`, `c > 0`, for a key `k` whose digest no stored entry has,
`Get(k)` returns nil. -/
theorem Get_absent_digest {c : Nat} {m : Map V} (hc : 0 < c) (hr : Reachable c m)
    (k : Key) (hno : ∀ n ∈ m.entries, n.hash ≠ fnv32a k) :
    m.Get k = .ok none := by
  have hw := hr.wf
  obtain ⟨chain, hb⟩ := hw.bucket hc (fnv32a k)
  rw [hw.Get_eq hc hb, (hw.lookup_none_iff hb).2 hno]
  rfl

/-! ## C8: termination -/

/-- C8 fails on the code. The map of capacity 3 that holds "a" and "b", both in
bucket 1, is reachable and not full; `Set("d", 3)` has to append to that chain
of two nodes, and the loop of `addNode` never returns: no step budget is
enough. -/
theorem Set_third_in_chain_diverges :
    Reachable 3 crowdedMap ∧ crowdedMap.len < crowdedMap.size
      ∧ ∀ fuel, crowdedMap.Set fuel (ascii "d") (some 3) = .error .outOfFuel :=
  ⟨crowdedMap_reachable, by decide, fun fuel =>
    crowdedMap_reachable.wf.Set_diverge (k := ascii "d") (by decide)
      (show crowdedMap.buckets[fnv32a (ascii "d") % 3]?
          = some (crowdedMap.buckets.getD 1 []) by decide)
      (by decide) (by decide) (by decide) fuel (some 3)⟩

/-! ## C10: `len` stays between 0 and `size` -/

/-- C10. In every map reachable from `Initialize(c)`, `0 <= len <= size`, and
`len` is a `uint32` value. A `Set` that returns leaves `len` as it was or one
higher, never above `size`; a `Delete` that returns leaves `len` as it was or
one lower, so the unsigned counter never wraps around. -/
theorem len_le_size {c : Nat} {m : Map V} (hr : Reachable c m) :
    0 ≤ m.len ∧ m.len ≤ m.size ∧ m.len < 2 ^ 32
    ∧ (∀ fuel k v b m', m.Set fuel k v = .ok (b, m') →
        m'.len ≤ m'.size ∧ (m'.len = m.len ∨ m'.len = m.len + 1))
    ∧ (∀ k r m', m.Delete k = .ok (r, m') →
        m'.len ≤ m'.size ∧ (m'.len = m.len ∨ m'.len + 1 = m.len)) := by
  have hw := hr.wf
  have hbound : ∀ {m' : Map V}, Reachable c m' → m'.len ≤ m'.size := fun h => by
    have := h.wf.len_le; have := h.wf.size_eq; omega
  refine ⟨Nat.zero_le _, hbound hr, ?_, ?_, ?_⟩
  · have := hw.len_le; have := hw.cap_lt; omega
  · intro fuel k v b m' hs
    refine ⟨hbound (Reachable.set m m' fuel k v b hr hs), ?_⟩
    rcases Nat.eq_zero_or_pos c with h0 | hc
    · rw [Set_size_zero (by rw [hw.size_eq, h0])] at hs
      cases hs
    · obtain ⟨chain, hb⟩ := hw.bucket hc (fnv32a k)
      rcases hw.Set_ok hc hb hs with ⟨_, _, _, rfl⟩ | ⟨_, _, rfl⟩ | ⟨_, hl, _, _, rfl⟩
      · exact Or.inl rfl
      · exact Or.inl rfl
      · right
        exact Nat.mod_eq_of_lt (by have := hw.len_le; have := hw.cap_lt; omega)
  · intro k r m' hd
    refine ⟨hbound (Reachable.delete m m' k r hr hd), ?_⟩
    rcases Nat.eq_zero_or_pos c with h0 | hc
    · rw [Delete_size_zero (by rw [hw.size_eq, h0])] at hd
      cases hd
    · obtain ⟨chain, hb⟩ := hw.bucket hc (fnv32a k)
      rcases hw.Delete_ok hc hb hd with ⟨_, _, rfl⟩ | ⟨_, _, _, _, _, _, _, _, hl, _⟩
      · exact Or.inl rfl
      · exact Or.inr hl.symm

/-- C10, at the full map of capacity 2: `len` is 2, not above `size`. -/
theorem len_le_size_witness : fullMap.len ≤ fullMap.size :=
  (len_le_size fullMap_reachable).2.1

end Gosh

namespace Gosh

variable {V : Type}

/-! ## C4: `Set` of a stored key -/

/-- In a well-formed map that stores an entry with key `k`, an entry has the
digest of `k` exactly when its key is `k`. -/
theorem WF.hash_eq_iff_key_eq {c : Nat} {m : Map V} (hw : WF c m) {n n' : node V}
    (hn : n ∈ m.entries) (hn' : n' ∈ m.entries) :
    n'.hash = fnv32a n.key ↔ n'.key = n.key := by
  constructor
  · intro e
    have : n' = n := hw.hash_nodup_entries hn' hn (e.trans (hw.mem_entries_hash hn).symm)
    rw [this]
  · intro e
    rw [hw.mem_entries_hash hn', e]

/-- C4. In a map reachable from `Initialize(c)`, `c > 0`, full or not, for a
key `k` that has a stored entry: `Set(k, v)` returns true with any step
budget, `len` and `size` are unchanged, the buckets are the old buckets with
`v` as the value of the entry whose key is `k` and every other entry, and the
order of every chain, as before, and `Get(k)` on the result returns `v`. -/
theorem Set_existing_key {c : Nat} {m : Map V} (hc : 0 < c) (hr : Reachable c m)
    (k : Key) (v : Option V) (hk : ∃ n ∈ m.entries, n.key = k) :
    ∀ fuel, ∃ m', m.Set fuel k v = .ok (true, m') ∧ m'.len = m.len ∧ m'.size = m.size
      ∧ m'.buckets = m.buckets.map (fun chain =>
          chain.map (fun n => if n.key = k then { n with value := v } else n))
      ∧ m'.Get k = .ok v := by
  intro fuel
  have hw := hr.wf
  obtain ⟨n, hn, rfl⟩ := hk
  obtain ⟨chain, hb⟩ := hw.bucket hc (fnv32a n.key)
  have hb' : m.buckets[n.hash % c]? = some chain := by rw [hw.mem_entries_hash hn]; exact hb
  have hg : getValueFromBucketChain chain (fnv32a n.key) = some n := by
    have := hw.lookup_of_mem hn hb'
    rwa [hw.mem_entries_hash hn] at this
  have hs := hw.Set_update hc hb hg fuel v
  refine ⟨_, hs, rfl, rfl, ?_, hw.Get_after_Set_same hc hs⟩
  apply List.ext_getElem?
  intro j
  simp only [List.getElem?_set, List.getElem?_map]
  have hi : fnv32a n.key % c < m.buckets.length := (List.getElem?_eq_some.1 hb).1
  by_cases hj : fnv32a n.key % c = j
  · rw [if_pos hj, if_pos hi, ← hj, hb, Option.map_some', assignValue_eq_map v (hw.nodup _ _ hb)]
    congr 1
    apply List.map_congr_left
    intro n' hn'
    have hmem : n' ∈ m.entries := (mem_entries_iff m n').2 ⟨_, chain, hb, hn'⟩
    by_cases e : n'.hash = fnv32a n.key
    · rw [if_pos e, if_pos ((hw.hash_eq_iff_key_eq hn hmem).1 e)]
    · rw [if_neg e, if_neg (fun e' => e ((hw.hash_eq_iff_key_eq hn hmem).2 e'))]
  · rw [if_neg hj]
    cases hch : m.buckets[j]? with
    | none => rfl
    | some ch =>
      rw [Option.map_some']
      congr 1
      conv_lhs => rw [← List.map_id ch]
      apply List.map_congr_left
      intro n' hn'
      have hmem : n' ∈ m.entries := (mem_entries_iff m n').2 ⟨_, ch, hch, hn'⟩
      have hne : n'.key ≠ n.key := by
        intro e
        have h1 := (hw.hash_ok j ch hch n' hn').2
        rw [(hw.hash_eq_iff_key_eq hn hmem).2 e] at h1
        exact hj h1
      rw [if_neg hne]
      rfl

/-- C4, at the map that holds only "key1" with value 1: `Set("key1", 9)`
returns true, `len` stays 1 and `Get("key1")` then returns 9. -/
theorem Set_existing_key_witness :
    ∃ m', oneKeyMap.Set 0 (ascii "key1") (some 9) = .ok (true, m')
      ∧ m'.len = oneKeyMap.len ∧ m'.size = oneKeyMap.size
      ∧ m'.buckets = oneKeyMap.buckets.map (fun chain =>
          chain.map (fun n => if n.key = ascii "key1" then { n with value := some 9 } else n))
      ∧ m'.Get (ascii "key1") = .ok (some 9) :=
  Set_existing_key (by decide) oneKeyMap_reachable (ascii "key1") (some 9)
    ⟨{ hash := 927623783, key := ascii "key1", value := some 1 }, by decide, by decide⟩ 0

/-! ## C5: `Delete` of a stored key -/

/-- C5. In a map reachable from `Initialize(c)`, `c > 0`, for a key `k` that
has a stored entry: `Delete(k)` returns, the value it returns is the value of
that entry and is what `Get(k)` returns on the map before the call, `len` is
lower by exactly 1, and `Get(k)` on the map after the call returns nil. -/
theorem Delete_present_key {c : Nat} {m : Map V} (hc : 0 < c) (hr : Reachable c m)
    (k : Key) (hk : ∃ n ∈ m.entries, n.key = k) :
    ∃ r m', m.Delete k = .ok (r, m') ∧ m.Get k = .ok r
      ∧ (∀ n ∈ m.entries, n.key = k → r = n.value)
      ∧ m'.len + 1 = m.len ∧ m'.Get k = .ok none := by
  have hw := hr.wf
  obtain ⟨n, hn, rfl⟩ := hk
  obtain ⟨chain, hb⟩ := hw.bucket hc (fnv32a n.key)
  have hb' : m.buckets[n.hash % c]? = some chain := by rw [hw.mem_entries_hash hn]; exact hb
  have hg : getValueFromBucketChain chain (fnv32a n.key) = some n := by
    have := hw.lookup_of_mem hn hb'
    rwa [hw.mem_entries_hash hn] at this
  have hd := hw.Delete_eq hc hb
  generalize hres : (match deleteLoop (fnv32a n.key) chain with
       | none => (none, m)
       | some (v, chain') =>
         (v, { m with buckets := m.buckets.set (fnv32a n.key % c) chain',
                      len := (m.len + 2 ^ 32 - 1) % 2 ^ 32 })) = res at hd
  obtain ⟨r, m'⟩ := res
  refine ⟨r, m', hd, hw.Get_before_Delete hc hd, ?_, ?_, hw.Get_after_Delete_same hc hd⟩
  · intro n' hn' e
    have hnn : n' = n :=
      hw.hash_nodup_entries hn' hn
        (((hw.hash_eq_iff_key_eq hn hn').2 e).trans (hw.mem_entries_hash hn).symm)
    rcases hw.Delete_ok hc hb hd with ⟨hg', _, _⟩ | ⟨_, x, _, _, _, hr', hg', _⟩
    · rw [hg] at hg'; cases hg'
    · rw [hg] at hg'
      cases hg'
      rw [hnn, hr']
  · rcases hw.Delete_ok hc hb hd with ⟨hg', _, _⟩ | ⟨_, _, _, _, _, _, _, _, hl, _⟩
    · rw [hg] at hg'; cases hg'
    · exact hl.symm

/-- C5, at the full map that holds "key1" and "key2": `Delete("key2")` returns
2, the value `Get("key2")` returned, `len` goes from 2 to 1 and `Get("key2")`
is nil afterwards. -/
theorem Delete_present_key_witness :
    ∃ r m', fullMap.Delete (ascii "key2") = .ok (r, m')
      ∧ fullMap.Get (ascii "key2") = .ok r
      ∧ (∀ n ∈ fullMap.entries, n.key = ascii "key2" → r = n.value)
      ∧ m'.len + 1 = fullMap.len ∧ m'.Get (ascii "key2") = .ok none :=
  Delete_present_key (by decide) fullMap_reachable (ascii "key2")
    ⟨{ hash := 944401402, key := ascii "key2", value := some 2 }, by decide, by decide⟩

end Gosh

namespace Gosh

variable {V : Type}

/-! ## Sequences of `Set` calls -/

/-- `Get` reads the key only through its digest. -/
theorem Get_congr_digest (m : Map V) {k k' : Key} (e : fnv32a k = fnv32a k') :
    m.Get k = m.Get k' := by
  simp only [Map.Get, getHashAndIndex, e]

theorem mem_flatten_set {bs : List (List (node V))} {i : Nat} {chain : List (node V)}
    (hb : bs[i]? = some chain) (x : List (node V)) {n : node V}
    (hn : n ∈ (bs.set i x).flatten) : n ∈ x ∨ n ∈ bs.flatten := by
  obtain ⟨h1, h2⟩ := split_bucket hb x
  rw [h2] at hn
  simp only [List.flatten_append, List.flatten_cons, List.mem_append] at hn
  have hsplit : n ∈ bs.flatten ↔
      n ∈ (bs.take i).flatten ∨ n ∈ chain ∨ n ∈ (bs.drop (i + 1)).flatten := by
    conv_lhs => rw [h1]
    simp only [List.flatten_append, List.flatten_cons, List.mem_append]
  rcases hn with h | h | h
  · exact Or.inr (hsplit.2 (Or.inl h))
  · exact Or.inl h
  · exact Or.inr (hsplit.2 (Or.inr (Or.inr h)))

/-- The digests stored after a `Set` that returned are the digests stored
before it and, at most, the digest of the key. -/
theorem WF.hash_after_Set {c : Nat} {m m' : Map V} (hw : WF c m) (hc : 0 < c)
    {k : Key} {fuel : Nat} {v : Option V} {b : Bool} (hs : m.Set fuel k v = .ok (b, m'))
    {n' : node V} (hn' : n' ∈ m'.entries) :
    n'.hash = fnv32a k ∨ ∃ n ∈ m.entries, n.hash = n'.hash := by
  obtain ⟨chain, hb⟩ := hw.bucket hc (fnv32a k)
  rcases hw.Set_ok hc hb hs with ⟨_, _, _, rfl⟩ | ⟨_, _, rfl⟩ | ⟨_, _, _, _, rfl⟩
  · exact Or.inr ⟨n', hn', rfl⟩
  · rcases mem_flatten_set hb _ hn' with h | h
    · have hmap : n'.hash ∈ (assignValue (fnv32a k) v chain).map node.hash :=
        List.mem_map_of_mem _ h
      rw [assignValue_map_hash] at hmap
      obtain ⟨n, hn, e⟩ := List.mem_map.1 hmap
      exact Or.inr ⟨n, (mem_entries_iff m n).2 ⟨_, chain, hb, hn⟩, e⟩
    · exact Or.inr ⟨n', h, rfl⟩
  · rcases mem_flatten_set hb _ hn' with h | h
    · rcases List.mem_append.1 h with h1 | h1
      · exact Or.inr ⟨n', (mem_entries_iff m n').2 ⟨_, chain, hb, h1⟩, rfl⟩
      · simp only [List.mem_singleton] at h1
        subst h1
        exact Or.inl rfl
    · exact Or.inr ⟨n', h, rfl⟩

theorem nodup_flatten_map_hash (c : Nat) :
    ∀ (bs : List (List (node V))) (o : Nat),
      (∀ (j : Nat) (ch : List (node V)), bs[j]? = some ch →
        ∀ n ∈ ch, n.hash % c = o + j) →
      (∀ (j : Nat) (ch : List (node V)), bs[j]? = some ch → (ch.map node.hash).Nodup) →
      (bs.flatten.map node.hash).Nodup := by
  intro bs
  induction bs with
  | nil => intro o _ _; simp
  | cons ch rest ih =>
    intro o hidx hnd
    simp only [List.flatten_cons, List.map_append]
    rw [List.nodup_append]
    refine ⟨hnd 0 ch (by simp), ih (o + 1) ?_ ?_, ?_⟩
    · intro j ch' hj n hn
      have := hidx (j + 1) ch' (by simpa using hj) n hn
      omega
    · intro j ch' hj
      exact hnd (j + 1) ch' (by simpa using hj)
    · intro a ha hb
      obtain ⟨n, hn, rfl⟩ := List.mem_map.1 ha
      obtain ⟨n', hn', e⟩ := List.mem_map.1 hb
      obtain ⟨ch', hch', hmem⟩ := List.mem_flatten.1 hn'
      obtain ⟨j, hj⟩ := List.mem_iff_getElem?.1 hch'
      have h1 := hidx 0 ch (by simp) n hn
      have h2 := hidx (j + 1) ch' (by simpa using hj) n' hmem
      rw [e] at h2
      omega

theorem WF.entries_hash_nodup {c : Nat} {m : Map V} (hw : WF c m) :
    (m.entries.map node.hash).Nodup :=
  nodup_flatten_map_hash c m.buckets 0
    (fun j ch hj n hn => by rw [(hw.hash_ok j ch hj n hn).2]; omega) hw.nodup

/-- A map whose stored digests all lie in a set `S`, and which misses one
digest of `S`, holds fewer entries than `S` has elements. -/
theorem WF.len_lt_card {c : Nat} {m : Map V} (hw : WF c m) {S : Finset Nat}
    (hS : ∀ n ∈ m.entries, n.hash ∈ S) {d : Nat} (hd : d ∈ S)
    (hno : ∀ n ∈ m.entries, n.hash ≠ d) : m.len < S.card := by
  have hnd : (d :: m.entries.map node.hash).Nodup := by
    rw [List.nodup_cons]
    refine ⟨?_, hw.entries_hash_nodup⟩
    intro hmem
    obtain ⟨n, hn, e⟩ := List.mem_map.1 hmem
    exact hno n hn e
  have hsub : (d :: m.entries.map node.hash).toFinset ⊆ S := by
    intro a ha
    simp only [List.toFinset_cons, Finset.mem_insert, List.mem_toFinset, List.mem_map] at ha
    rcases ha with rfl | ⟨n, hn, rfl⟩
    · exact hd
    · exact hS n hn
  have hcard := Finset.card_le_card hsub
  rw [List.toFinset_card_of_nodup hnd] at hcard
  simp only [List.length_cons, List.length_map] at hcard
  rw [hw.len_eq]
  omega

/-- A sequence of `Set` calls whose digests all lie in a set of at most `c`
digests, on a well-formed map of capacity `c` whose stored digests lie in it
too: if every call returns, every call returns true, and afterwards `Get`
returns, for a key whose digest was set, the value set last for that digest,
and for any other key what it returned before the calls. -/
theorem setAll_spec {c : Nat} (hc : 0 < c) (S : Finset Nat) (hcard : S.card ≤ c)
    (fuel : Nat) :
    ∀ (calls : List (Key × Option V)) (m m' : Map V) (bs : List Bool),
      WF c m → (∀ n ∈ m.entries, n.hash ∈ S) → (∀ kv ∈ calls, fnv32a kv.1 ∈ S) →
      setAll fuel m calls = .ok (bs, m') →
      (∀ b ∈ bs, b = true) ∧ WF c m' ∧
        ∀ k, m'.Get k = match lastSetDigest (fnv32a k) calls with
                        | some v => .ok v
                        | none => m.Get k := by
  intro calls
  induction calls with
  | nil =>
    intro m m' bs hw _ _ hrun
    simp only [setAll, Except.ok.injEq, Prod.mk.injEq] at hrun
    obtain ⟨rfl, rfl⟩ := hrun
    exact ⟨by simp, hw, fun k => rfl⟩
  | cons kv rest ih =>
    obtain ⟨k₁, v₁⟩ := kv
    intro m m' bs hw hS hcalls hrun
    simp only [setAll] at hrun
    cases hs : m.Set fuel k₁ v₁ with
    | error e => simp [hs] at hrun
    | ok p =>
      obtain ⟨b, m₁⟩ := p
      simp only [hs] at hrun
      cases hrest : setAll fuel m₁ rest with
      | error e => simp [hrest] at hrun
      | ok q =>
        obtain ⟨bs', m₂⟩ := q
        simp only [hrest, Except.ok.injEq, Prod.mk.injEq] at hrun
        obtain ⟨rfl, rfl⟩ := hrun
        have hk₁ : fnv32a k₁ ∈ S := hcalls (k₁, v₁) (List.mem_cons_self _ _)
        have hb : b = true := by
          obtain ⟨chain, hbk⟩ := hw.bucket hc (fnv32a k₁)
          rcases hw.Set_ok hc hbk hs with ⟨hg, hl, _, _⟩ | ⟨_, h, _⟩ | ⟨_, _, h, _⟩
          · have := hw.len_lt_card hS hk₁ ((hw.lookup_none_iff hbk).1 hg)
            omega
          · exact h
          · exact h
        subst hb
        have hw₁ : WF c m₁ := hw.Set_preserves hc hs
        have hS₁ : ∀ n ∈ m₁.entries, n.hash ∈ S := by
          intro n' hn'
          rcases hw.hash_after_Set hc hs hn' with e | ⟨n, hn, e⟩
          · rw [e]; exact hk₁
          · rw [← e]; exact hS n hn
        obtain ⟨hall, hw₂, hget⟩ :=
          ih m₁ m₂ bs' hw₁ hS₁ (fun kv hkv => hcalls kv (List.mem_cons_of_mem _ hkv)) hrest
        refine ⟨?_, hw₂, ?_⟩
        · intro b' hb'
          rcases List.mem_cons.1 hb' with rfl | h
          · rfl
          · exact hall b' h
        · intro k
          rw [hget k]
          simp only [lastSetDigest]
          cases lastSetDigest (fnv32a k) rest with
          | some w => rfl
          | none =>
            by_cases e : fnv32a k₁ = fnv32a k
            · simp only [e, if_true]
              rw [Get_congr_digest m₁ e.symm]
              exact hw.Get_after_Set_same hc hs
            · simp only [e, if_false]
              exact hw.Get_after_Set_other hc hs (fun h => e h.symm)

end Gosh

namespace Gosh

variable {V : Type}

theorem Initialize_entries (c : Nat) : (Initialize c : Map V).entries = [] := by
  simp only [Initialize, Map.entries]
  induction c with
  | zero => rfl
  | succ k ih => simp [List.replicate_succ]

theorem lastSet_some_mem {k : Key} {v : Option V} :
    ∀ {calls : List (Key × Option V)}, lastSet k calls = some v →
      k ∈ calls.map Prod.fst := by
  intro calls
  induction calls with
  | nil => intro h; simp [lastSet] at h
  | cons kv rest ih =>
    obtain ⟨k', v'⟩ := kv
    intro h
    simp only [lastSet] at h
    cases hr : lastSet k rest with
    | some w =>
      rw [hr] at h
      exact List.mem_cons_of_mem _ (ih (hr.trans (by rw [← h])))
    | none =>
      rw [hr] at h
      by_cases e : k' = k
      · simp [e]
      · simp [e] at h

theorem lastSetDigest_eq_lastSet (k : Key) :
    ∀ (calls : List (Key × Option V)),
      (∀ kv ∈ calls, fnv32a kv.1 = fnv32a k → kv.1 = k) →
      lastSetDigest (fnv32a k) calls = lastSet k calls := by
  intro calls
  induction calls with
  | nil => intro _; rfl
  | cons kv rest ih =>
    obtain ⟨k', v'⟩ := kv
    intro h
    simp only [lastSetDigest, lastSet]
    rw [ih (fun kv hkv => h kv (List.mem_cons_of_mem _ hkv))]
    cases lastSet k rest with
    | some w => rfl
    | none =>
      have hk := h (k', v') (List.mem_cons_self _ _)
      by_cases e : k' = k
      · simp [e]
      · have : fnv32a k' ≠ fnv32a k := fun e' => e (hk e')
        simp [e, this]

/-- A sequence of `Set` calls returns, whatever the step budget, when no two
of the digests in play fall into the same bucket: the chain a new entry is
appended to is then empty. -/
theorem setAll_returns {c : Nat} (hc : 0 < c) (S : Finset Nat)
    (hbucket : ∀ d₁ ∈ S, ∀ d₂ ∈ S, d₁ % c = d₂ % c → d₁ = d₂) (fuel : Nat) :
    ∀ (calls : List (Key × Option V)) (m : Map V),
      WF c m → (∀ n ∈ m.entries, n.hash ∈ S) → (∀ kv ∈ calls, fnv32a kv.1 ∈ S) →
      ∃ bs m', setAll fuel m calls = .ok (bs, m') := by
  intro calls
  induction calls with
  | nil => intro m _ _ _; exact ⟨[], m, rfl⟩
  | cons kv rest ih =>
    obtain ⟨k₁, v₁⟩ := kv
    intro m hw hS hcalls
    have hk₁ : fnv32a k₁ ∈ S := hcalls (k₁, v₁) (List.mem_cons_self _ _)
    obtain ⟨chain, hb⟩ := hw.bucket hc (fnv32a k₁)
    have hset : ∃ b m₁, m.Set fuel k₁ v₁ = .ok (b, m₁) := by
      cases hg : getValueFromBucketChain chain (fnv32a k₁) with
      | some n => exact ⟨_, _, hw.Set_update hc hb hg fuel v₁⟩
      | none =>
        by_cases hl : m.len = c
        · exact ⟨_, _, hw.Set_full hc hb hg hl fuel v₁⟩
        · have hnil : chain = [] := by
            cases chain with
            | nil => rfl
            | cons a t =>
              exfalso
              have ha : a ∈ m.entries :=
                (mem_entries_iff m a).2 ⟨_, _, hb, List.mem_cons_self _ _⟩
              have hidx := (hw.hash_ok _ _ hb a (List.mem_cons_self _ _)).2
              have := hbucket a.hash (hS a ha) (fnv32a k₁) hk₁ hidx
              exact (getValue_none_iff _ _).1 hg a (List.mem_cons_self _ _) this
          subst hnil
          exact ⟨_, _, hw.Set_insert_nil hc hb hl fuel v₁⟩
    obtain ⟨b, m₁, hs⟩ := hset
    have hS₁ : ∀ n ∈ m₁.entries, n.hash ∈ S := by
      intro n' hn'
      rcases hw.hash_after_Set hc hs hn' with e | ⟨n, hn, e⟩
      · rw [e]; exact hk₁
      · rw [← e]; exact hS n hn
    obtain ⟨bs, m', hrun⟩ :=
      ih m₁ (hw.Set_preserves hc hs) hS₁ (fun kv hkv => hcalls kv (List.mem_cons_of_mem _ hkv))
    exact ⟨b :: bs, m', by simp [setAll, hs, hrun]⟩

/-! ## C1: `Get` after a sequence of `Set` calls -/

/-- C1 fails on the code, in two ways. On `Initialize(2)`, `Set("costarring", 1)`
and then `Set("liquid", 2)` use two different keys, not more than the capacity,
and both calls return true; yet `Get("costarring")` then returns 2, while the
value last set for "costarring" is 1: the second call found the entry of
"costarring" by the digest the two keys share and overwrote its value. And on
`Initialize(3)`, the calls `Set("a", 1)`, `Set("b", 2)`, `Set("d", 3)` use three
different keys, not more than the capacity, and do not all return, whatever
the step budget. -/
theorem Get_after_sets_fails :
    (collidingCalls.map Prod.fst).Nodup ∧ (collidingCalls.map Prod.fst).length ≤ 2
      ∧ setAll 1 (Initialize 2) collidingCalls = .ok ([true, true], collisionMapAfterSet)
      ∧ lastSet (ascii "costarring") collidingCalls = some (some 1)
      ∧ collisionMapAfterSet.Get (ascii "costarring") = .ok (some 2)
      ∧ (threeKeyCalls.map Prod.fst).Nodup ∧ (threeKeyCalls.map Prod.fst).length ≤ 3
      ∧ ∀ fuel, setAll fuel (Initialize 3) threeKeyCalls = .error .outOfFuel := by
  refine ⟨by decide, by decide, by decide, by decide, by decide, by decide, by decide, ?_⟩
  intro fuel
  cases fuel with
  | zero => decide
  | succ f =>
    have h₁ : (Initialize 3 : Map Nat).Set (f + 1) (ascii "a") (some 1)
        = .ok (true, oneLetterMap) :=
      ((WF_Initialize (by norm_num)).Set_insert_nil (c := 3) (k := ascii "a") (by decide)
        (by decide) (by decide) (f + 1) (some 1)).trans (by decide)
    have h₂ : oneLetterMap.Set (f + 1) (ascii "b") (some 2) = .ok (true, crowdedMap) :=
      (oneLetterMap_reachable.wf.Set_insert (k := ascii "b") (by decide)
        (show oneLetterMap.buckets[fnv32a (ascii "b") % 3]?
            = some (oneLetterMap.buckets.getD 1 []) by decide)
        (by decide) (by decide) (by decide) f (some 2)).trans (by decide)
    have h₃ : crowdedMap.Set (f + 1) (ascii "d") (some 3) = .error .outOfFuel :=
      crowdedMap_reachable.wf.Set_diverge (k := ascii "d") (by decide)
        (show crowdedMap.buckets[fnv32a (ascii "d") % 3]?
            = some (crowdedMap.buckets.getD 1 []) by decide)
        (by decide) (by decide) (by decide) (f + 1) (some 3)
    simp only [threeKeyCalls, setAll, h₁, h₂, h₃]

/-- What a sequence of `Set` calls does guarantee. For a capacity `c > 0` and
a sequence of `Set` calls on `Initialize(c)` that uses at most `c` different
keys, no two of them with the same digest: if every call returns, then every
call returns true and afterwards `Get(k)` returns the value last set for `k`,
for each of the keys; and every call does return, whatever the step budget,
when no two of the keys fall into the same bucket. -/
theorem Get_after_sets {c : Nat} (hc : 0 < c) (hlt : c < 2 ^ 32) (fuel : Nat)
    (calls : List (Key × Option V))
    (hkeys : (calls.map Prod.fst).toFinset.card ≤ c)
    (hinj : ∀ k₁ ∈ calls.map Prod.fst, ∀ k₂ ∈ calls.map Prod.fst,
      fnv32a k₁ = fnv32a k₂ → k₁ = k₂) :
    (∀ bs m', setAll fuel (Initialize c) calls = .ok (bs, m') →
        (∀ b ∈ bs, b = true) ∧ ∀ k v, lastSet k calls = some v → m'.Get k = .ok v)
    ∧ ((∀ k₁ ∈ calls.map Prod.fst, ∀ k₂ ∈ calls.map Prod.fst,
          fnv32a k₁ % c = fnv32a k₂ % c → k₁ = k₂) →
        ∃ bs m', setAll fuel (Initialize c) calls = .ok (bs, m')) := by
  have hw : WF c (Initialize c : Map V) := WF_Initialize hlt
  have hS₀ : ∀ n ∈ (Initialize c : Map V).entries,
      n.hash ∈ ((calls.map Prod.fst).toFinset.image fnv32a) := by
    intro n hn
    rw [Initialize_entries] at hn
    cases hn
  have hcalls : ∀ kv ∈ calls, fnv32a kv.1 ∈ ((calls.map Prod.fst).toFinset.image fnv32a) := by
    intro kv hkv
    exact Finset.mem_image_of_mem _ (List.mem_toFinset.2 (List.mem_map_of_mem _ hkv))
  constructor
  · intro bs m' hrun
    obtain ⟨hall, _, hget⟩ :=
      setAll_spec hc _ (le_trans Finset.card_image_le hkeys) fuel calls _ m' bs hw hS₀ hcalls hrun
    refine ⟨hall, ?_⟩
    intro k v hlast
    have hk := lastSet_some_mem hlast
    rw [hget k, lastSetDigest_eq_lastSet k calls ?_, hlast]
    intro kv hkv e
    exact hinj kv.1 (List.mem_map_of_mem _ hkv) k hk e
  · intro hbucket
    apply setAll_returns hc _ ?_ fuel calls _ hw hS₀ hcalls
    intro d₁ hd₁ d₂ hd₂ e
    obtain ⟨k₁, hk₁, rfl⟩ := Finset.mem_image.1 hd₁
    obtain ⟨k₂, hk₂, rfl⟩ := Finset.mem_image.1 hd₂
    rw [hbucket k₁ (List.mem_toFinset.1 hk₁) k₂ (List.mem_toFinset.1 hk₂) e]

end Gosh

namespace Gosh

variable {V : Type}

/-! ## C9: the load factor -/

/-- A sequence of `Set` calls with pairwise different digests, none of them
stored yet, that all return true, adds one entry for each call. -/
theorem setAll_len {c : Nat} (hc : 0 < c) (fuel : Nat) :
    ∀ (calls : List (Key × Option V)) (m m' : Map V) (bs : List Bool),
      WF c m → (calls.map (fun kv => fnv32a kv.1)).Nodup →
      (∀ kv ∈ calls, ∀ n ∈ m.entries, n.hash ≠ fnv32a kv.1) →
      setAll fuel m calls = .ok (bs, m') → (∀ b ∈ bs, b = true) →
      WF c m' ∧ m'.len = m.len + calls.length := by
  intro calls
  induction calls with
  | nil =>
    intro m m' bs hw _ _ hrun _
    simp only [setAll, Except.ok.injEq, Prod.mk.injEq] at hrun
    obtain ⟨_, rfl⟩ := hrun
    exact ⟨hw, rfl⟩
  | cons kv rest ih =>
    obtain ⟨k₁, v₁⟩ := kv
    intro m m' bs hw hnd hnew hrun hall
    simp only [setAll] at hrun
    cases hs : m.Set fuel k₁ v₁ with
    | error e => simp [hs] at hrun
    | ok p =>
      obtain ⟨b, m₁⟩ := p
      simp only [hs] at hrun
      cases hrest : setAll fuel m₁ rest with
      | error e => simp [hrest] at hrun
      | ok q =>
        obtain ⟨bs', m₂⟩ := q
        simp only [hrest, Except.ok.injEq, Prod.mk.injEq] at hrun
        obtain ⟨rfl, rfl⟩ := hrun
        have hb : b = true := hall b (List.mem_cons_self _ _)
        subst hb
        simp only [List.map_cons, List.nodup_cons, List.mem_map, not_exists, not_and] at hnd
        obtain ⟨chain, hbk⟩ := hw.bucket hc (fnv32a k₁)
        have hg : getValueFromBucketChain chain (fnv32a k₁) = none :=
          (hw.lookup_none_iff hbk).2 (hnew (k₁, v₁) (List.mem_cons_self _ _))
        have hlen₁ : m₁.len = m.len + 1 := by
          rcases hw.Set_ok hc hbk hs with ⟨_, _, hf, _⟩ | ⟨⟨n, hn⟩, _, _⟩ | ⟨_, hl, _, _, rfl⟩
          · cases hf
          · rw [hg] at hn; cases hn
          · exact Nat.mod_eq_of_lt (by have := hw.len_le; have := hw.cap_lt; omega)
        have hnew₁ : ∀ kv ∈ rest, ∀ n ∈ m₁.entries, n.hash ≠ fnv32a kv.1 := by
          intro kv hkv n' hn'
          rcases hw.hash_after_Set hc hs hn' with e | ⟨n, hn, e⟩
          · rw [e]
            intro e'
            exact hnd.1 kv hkv e'.symm
          · rw [← e]
            exact hnew kv (List.mem_cons_of_mem _ hkv) n hn
        obtain ⟨hw₂, hlen₂⟩ := ih m₁ m₂ bs' (hw.Set_preserves hc hs) hnd.2 hnew₁ hrest
          (fun b' hb' => hall b' (List.mem_cons_of_mem _ hb'))
        refine ⟨hw₂, ?_⟩
        rw [hlen₂, hlen₁, List.length_cons]
        omega

/-- For `uint32` operands with `n > 0` the search for the number of binary
places succeeds: the scaled quotient reaches `2 ^ 52`. -/
theorem float64Shift_spec {n d : Nat} (hn : 0 < n) (hd : d < 2 ^ 32) :
    2 ^ 52 * d ≤ n * 2 ^ float64Shift n d := by
  unfold float64Shift
  cases h : (List.range 96).find? (fun s => decide (2 ^ 52 * d ≤ n * 2 ^ s)) with
  | some s =>
    have := List.find?_some h
    simpa using this
  | none =>
    exfalso
    rw [List.find?_eq_none] at h
    have h84 := h 84 (by simp)
    simp only [decide_eq_true_eq, not_le] at h84
    have : 1 * 2 ^ 84 ≤ n * 2 ^ 84 := Nat.mul_le_mul_right _ hn
    omega

/-- The rounded quotient of `uint32` operands `0 < n <= d` is a finite number
between 0 and 1, within `2 ^ -53` of the exact quotient, and the exact quotient
itself when that needs no rounding. -/
theorem float64Div_spec {n d : Nat} (hn : 0 < n) (hnd : n ≤ d) (hd : d < 2 ^ 32) :
    ∃ x : ℚ, float64Div n d = .finite x ∧ 0 ≤ x ∧ x ≤ 1
      ∧ |x - (n : ℚ) / (d : ℚ)| ≤ 1 / 2 ^ 53
      ∧ (n * 2 ^ float64Shift n d % d = 0 → x = (n : ℚ) / (d : ℚ)) := by
  have hd0 : d ≠ 0 := by omega
  have hn0 : n ≠ 0 := by omega
  have hs := float64Shift_spec hn hd
  simp only [float64Div, hd0, hn0, if_false]
  generalize float64Shift n d = s at hs ⊢
  have hdiv := Nat.div_add_mod (n * 2 ^ s) d
  have hmod := Nat.mod_lt (n * 2 ^ s) (show 0 < d by omega)
  generalize hq : n * 2 ^ s / d = q at hdiv ⊢
  generalize hr : n * 2 ^ s % d = r at hdiv hmod ⊢
  have hP52 : 2 ^ 52 ≤ 2 ^ s := by
    have h1 : n * 2 ^ s ≤ d * 2 ^ s := Nat.mul_le_mul_right _ hnd
    have h2 : 2 ^ 52 * d ≤ d * 2 ^ s := le_trans hs h1
    rw [Nat.mul_comm] at h2
    exact Nat.le_of_mul_le_mul_left h2 (by omega)
  -- the integer facts about the rounded significand
  obtain ⟨q', hq', hlo, hhi, hle, hzero⟩ :
      ∃ q' : Nat, (if d < 2 * r ∨ (2 * r = d ∧ q % 2 = 1) then q + 1 else q) = q'
        ∧ 2 * (n * 2 ^ s) ≤ 2 * (q' * d) + d ∧ 2 * (q' * d) ≤ 2 * (n * 2 ^ s) + d
        ∧ q' ≤ 2 ^ s ∧ (r = 0 → q' * d = n * 2 ^ s) := by
    have hqd : q * d ≤ 2 ^ s * d := by
      have : n * 2 ^ s ≤ 2 ^ s * d := by
        rw [Nat.mul_comm (2 ^ s) d]; exact Nat.mul_le_mul_right _ hnd
      nlinarith
    have hqle : q ≤ 2 ^ s := Nat.le_of_mul_le_mul_right hqd (by omega)
    by_cases hc : d < 2 * r ∨ (2 * r = d ∧ q % 2 = 1)
    · refine ⟨q + 1, by rw [if_pos hc], ?_, ?_, ?_, ?_⟩
      · nlinarith
      · have : 2 * r ≥ d := by rcases hc with h | h <;> omega
        nlinarith
      · rcases Nat.lt_or_ge q (2 ^ s) with h | h
        · omega
        · exfalso
          have hq2 : q = 2 ^ s := le_antisymm hqle h
          have : r = 0 := by
            have : n * 2 ^ s ≤ d * 2 ^ s := Nat.mul_le_mul_right _ hnd
            subst hq2
            nlinarith
          rcases hc with h | h <;> omega
      · intro h0
        rcases hc with h | h <;> omega
    · refine ⟨q, by rw [if_neg hc], ?_, ?_, hqle, ?_⟩
      · have : 2 * r ≤ d := by
          by_contra h
          exact hc (Or.inl (by omega))
        nlinarith
      · nlinarith
      · intro h0
        subst h0
        nlinarith
  rw [hq']
  have hP : (0 : ℚ) < 2 ^ s := by positivity
  have hD : (0 : ℚ) < (d : ℚ) := by exact_mod_cast (show 0 < d by omega)
  have hloQ : 2 * ((n : ℚ) * 2 ^ s) ≤ 2 * ((q' : ℚ) * d) + d := by exact_mod_cast hlo
  have hhiQ : 2 * ((q' : ℚ) * d) ≤ 2 * ((n : ℚ) * 2 ^ s) + d := by exact_mod_cast hhi
  have hleQ : (q' : ℚ) ≤ 2 ^ s := by exact_mod_cast hle
  have hPQ : (2 : ℚ) ^ 52 ≤ 2 ^ s := by exact_mod_cast hP52
  have key : (q' : ℚ) / 2 ^ s - (n : ℚ) / d = ((q' : ℚ) * d - n * 2 ^ s) / (2 ^ s * d) := by
    field_simp
    ring
  refine ⟨_, rfl, by positivity, (div_le_one hP).2 hleQ, ?_, ?_⟩
  · rw [key, abs_le]
    have hPD : (0 : ℚ) < 2 ^ s * d := by positivity
    have hbound : (d : ℚ) / 2 ≤ 1 / 2 ^ 53 * (2 ^ s * d) := by
      have : (1 : ℚ) / 2 ^ 53 * (2 ^ s * d) = (2 ^ s / 2 ^ 53) * d := by ring
      rw [this]
      have : (1 : ℚ) / 2 ≤ 2 ^ s / 2 ^ 53 := by
        rw [le_div_iff₀ (by positivity)]
        calc (1 : ℚ) / 2 * 2 ^ 53 = 2 ^ 52 := by norm_num
          _ ≤ 2 ^ s := hPQ
      nlinarith
    constructor
    · rw [le_div_iff₀ hPD]
      linarith
    · rw [div_le_iff₀ hPD]
      linarith
  · intro h0
    have := hzero h0
    have hQ : (q' : ℚ) * d = n * 2 ^ s := by exact_mod_cast this
    rw [div_eq_div_iff (ne_of_gt hP) (ne_of_gt hD)]
    exact hQ

/-- With a numerator 0 and a denominator that is not 0 the quotient is 0. -/
theorem float64Div_zero {d : Nat} (hd : d ≠ 0) : float64Div 0 d = .finite 0 := by
  simp [float64Div, hd]

/-- C9 fails as stated. The map that `Initialize(3)` and `Set("a", 1)` yield is
reachable, one new key was inserted into an empty map of capacity 3, and its
`Load()` is the `float64` 6004799503160661 / 2 ^ 54, the one nearest to 1 / 3:
it is not the ratio `len / size` of the two counters, which no `float64`
equals. -/
theorem Load_not_exact_counterexample :
    Reachable 3 oneLetterMap
      ∧ setAll 1 (Initialize 3) [(ascii "a", some 1)] = .ok ([true], oneLetterMap)
      ∧ oneLetterMap.Load = .finite (6004799503160661 / 18014398509481984)
      ∧ oneLetterMap.Load ≠ .finite ((oneLetterMap.len : ℚ) / (oneLetterMap.size : ℚ)) := by
  have hs : float64Shift 1 3 = 54 := by decide
  refine ⟨oneLetterMap_reachable, by decide, ?_, ?_⟩
  · simp only [Map.Load, oneLetterMap, float64Div, hs]
    norm_num
  · simp only [Map.Load, oneLetterMap, float64Div, hs]
    norm_num

/-- C9, amended. In a map reachable from `Initialize(c)`, `c > 0`, `Load()` is
the `float64` quotient of the two counters: a finite number `x` with
`0 <= x <= 1`, so never greater than 1, that differs from the ratio
`len / size` by at most `2 ^ -53` and is that ratio exactly when `len` is 0,
when `len == size`, and whenever the division leaves no remainder to round.
After `n` further `Set` calls that each inserted a new key (pairwise different
digests, none stored before, every call returned true) it is the `float64`
quotient of `len + n` and `c`; in particular, after inserting `n` new keys
into the empty map `Initialize(c)` it is the `float64` quotient of `n` and
`c`. -/
theorem Load_nearest {c : Nat} {m : Map V} (hc : 0 < c) (hr : Reachable c m) :
    (∃ x : ℚ, m.Load = .finite x ∧ 0 ≤ x ∧ x ≤ 1
      ∧ |x - (m.len : ℚ) / (m.size : ℚ)| ≤ 1 / 2 ^ 53
      ∧ (m.len = 0 → x = 0) ∧ (m.len = m.size → x = 1)
      ∧ (m.len * 2 ^ float64Shift m.len m.size % m.size = 0 →
          x = (m.len : ℚ) / (m.size : ℚ)))
    ∧ (∀ fuel (calls : List (Key × Option V)) bs m',
        (calls.map (fun kv => fnv32a kv.1)).Nodup →
        (∀ kv ∈ calls, ∀ n ∈ m.entries, n.hash ≠ fnv32a kv.1) →
        setAll fuel m calls = .ok (bs, m') → (∀ b ∈ bs, b = true) →
        m'.Load = float64Div (m.len + calls.length) c)
    ∧ (∀ fuel (calls : List (Key × Option V)) bs m',
        (calls.map (fun kv => fnv32a kv.1)).Nodup →
        setAll fuel (Initialize c) calls = .ok (bs, m') → (∀ b ∈ bs, b = true) →
        m'.Load = float64Div calls.length c) := by
  have hw := hr.wf
  refine ⟨?_, ?_, ?_⟩
  · have hsz : m.size ≠ 0 := by rw [hw.size_eq]; omega
    rcases Nat.eq_zero_or_pos m.len with h0 | hpos
    · refine ⟨0, ?_, le_refl _, zero_le_one, ?_, fun _ => rfl, ?_, ?_⟩
      · rw [Map.Load, h0]; exact float64Div_zero hsz
      · simp [h0]
      · intro h; rw [h0] at h; exact absurd h.symm hsz
      · intro _; simp [h0]
    · have hle : m.len ≤ m.size := by have := hw.len_le; rw [hw.size_eq]; exact this
      have hlt : m.size < 2 ^ 32 := by rw [hw.size_eq]; exact hw.cap_lt
      obtain ⟨x, hx, h0, h1, habs, hex⟩ := float64Div_spec hpos hle hlt
      refine ⟨x, hx, h0, h1, habs, fun h => absurd h (by omega), ?_, hex⟩
      intro heq
      have hx1 := hex (by rw [← heq]; exact Nat.mul_mod_right _ _)
      rw [hx1, ← heq]
      exact div_self (by exact_mod_cast (show m.len ≠ 0 by omega))
  · intro fuel calls bs m' hnd hnew hrun hall
    obtain ⟨hw', hlen⟩ := setAll_len hc fuel calls m m' bs hw hnd hnew hrun hall
    simp only [Map.Load, hlen, hw'.size_eq]
  · intro fuel calls bs m' hnd hrun hall
    have hw₀ : WF c (Initialize c : Map V) := WF_Initialize hw.cap_lt
    obtain ⟨hw', hlen⟩ := setAll_len hc fuel calls _ m' bs hw₀ hnd
      (fun kv _ n hn => by rw [Initialize_entries] at hn; cases hn) hrun hall
    simp only [Map.Load, hlen, hw'.size_eq]
    simp [Initialize]

/-- C9, amended, at `Initialize(2)` with `Set("key1", 1)` and `Set("key2", 2)`,
the calls of the test `TestLoadFactor`: the load factor afterwards is the
`float64` quotient of 2 and 2, which is 1. -/
theorem Load_nearest_witness :
    fullMap.Load = float64Div twoKeyCalls.length 2
      ∧ float64Div twoKeyCalls.length 2 = .finite 1 :=
  ⟨(Load_nearest (by decide) (Reachable.init (by norm_num))).2.2 1 twoKeyCalls
    [true, true] fullMap (by decide) (by decide) (by decide), by
    have hs : float64Shift 2 2 = 52 := by decide
    simp only [twoKeyCalls, List.length, float64Div, hs]
    norm_num⟩

end Gosh

namespace Gosh

variable {V : Type}

/-! ## C11: the map `Initialize` returns -/

/-- C11. For every `s`, `Initialize(s)` has `len` 0, `size` `s` and exactly `s`
bucket slots, all of them empty; for `s > 0` its `Load()` is 0 and `Get` of
every key returns nil. -/
theorem Initialize_empty (s : Nat) :
    (Initialize s : Map V).len = 0 ∧ (Initialize s : Map V).size = s
    ∧ (Initialize s : Map V).buckets.length = s
    ∧ (∀ chain ∈ (Initialize s : Map V).buckets, chain = [])
    ∧ (0 < s → (Initialize s : Map V).Load = .finite 0
        ∧ ∀ k, (Initialize s : Map V).Get k = .ok none) := by
  refine ⟨rfl, rfl, by simp [Initialize], ?_, ?_⟩
  · intro chain hch
    simp only [Initialize] at hch
    exact (List.mem_replicate.1 hch).2
  · intro hs
    refine ⟨by simp [Map.Load, Initialize, float64Div, hs.ne'], ?_⟩
    intro k
    have hb : (Initialize s : Map V).buckets[fnv32a k % s]? = some [] := by
      simp [Initialize, List.getElem?_replicate, Nat.mod_lt _ hs]
    rw [Get_eq_of rfl hs hb]
    rfl

/-- C11, at capacity 5, as in the test `TestMapInitialization`. -/
theorem Initialize_empty_witness :
    (Initialize 5 : Map Nat).size = 5 ∧ (Initialize 5 : Map Nat).Load = .finite 0
      ∧ (Initialize 5 : Map Nat).Get (ascii "key1") = .ok none :=
  ⟨(Initialize_empty 5).2.1, ((Initialize_empty 5).2.2.2.2 (by decide)).1,
    ((Initialize_empty 5).2.2.2.2 (by decide)).2 (ascii "key1")⟩

/-! ## C12: capacity zero -/

/-- C12 fails as stated. `Initialize(0)` does not fail: it returns a map with
`size` 0 and no bucket slot. `Set`, `Get` and `Delete` on that map reach
`getHashAndIndex`, which takes the digest modulo 0: the calls end in Go's
integer-divide-by-zero panic, not in an error raised by a check. -/
theorem zero_capacity_counterexample :
    (Initialize 0 : Map Nat) = { len := 0, size := 0, buckets := [] }
      ∧ getHashAndIndex (ascii "key1") (Initialize 0 : Map Nat).size = .error .divideByZero
      ∧ (Initialize 0 : Map Nat).Set 1 (ascii "key1") (some 1) = .error .divideByZero
      ∧ (Initialize 0 : Map Nat).Get (ascii "key1") = .error .divideByZero
      ∧ (Initialize 0 : Map Nat).Delete (ascii "key1") = .error .divideByZero :=
  ⟨by decide, by decide, by decide, by decide, by decide⟩

/-- C12, amended. `Initialize(0)` returns a map with `len` 0, `size` 0 and no
bucket slot, and every `Set`, `Get` and `Delete` on it ends in the run-time
panic of the modulo by zero in `getHashAndIndex`. -/
theorem zero_capacity_panics (fuel : Nat) (k : Key) (v : Option V) :
    (Initialize 0 : Map V).len = 0 ∧ (Initialize 0 : Map V).size = 0
    ∧ (Initialize 0 : Map V).buckets = []
    ∧ getHashAndIndex k (Initialize 0 : Map V).size = .error .divideByZero
    ∧ (Initialize 0 : Map V).Set fuel k v = .error .divideByZero
    ∧ (Initialize 0 : Map V).Get k = .error .divideByZero
    ∧ (Initialize 0 : Map V).Delete k = .error .divideByZero :=
  ⟨rfl, rfl, rfl, rfl, Set_size_zero rfl fuel k v, Get_size_zero rfl k,
    Delete_size_zero rfl k⟩

/-! ## C13: no two stored entries share a digest -/

/-- C13. In every map reachable from `Initialize(c)`, the digests of the
stored entries, listed bucket after bucket, are pairwise different: two
entries with the same digest, in the same chain or in different chains, are one
and the same entry of one chain. -/
theorem digests_unique {c : Nat} {m : Map V} (hr : Reachable c m) :
    (m.entries.map node.hash).Nodup
    ∧ ∀ (i j : Nat) (ci cj : List (node V)) (n n' : node V),
        m.buckets[i]? = some ci → m.buckets[j]? = some cj → n ∈ ci → n' ∈ cj →
        n.hash = n'.hash → i = j ∧ n = n' := by
  have hw := hr.wf
  refine ⟨hw.entries_hash_nodup, ?_⟩
  intro i j ci cj n n' hi hj hn hn' e
  have h1 := (hw.hash_ok i ci hi n hn).2
  have h2 := (hw.hash_ok j cj hj n' hn').2
  refine ⟨by rw [← h1, ← h2, e], ?_⟩
  exact hw.hash_nodup_entries ((mem_entries_iff m n).2 ⟨i, ci, hi, hn⟩)
    ((mem_entries_iff m n').2 ⟨j, cj, hj, hn'⟩) e

/-- C13, at the full map that holds "key1" and "key2". -/
theorem digests_unique_witness : (fullMap.entries.map node.hash).Nodup :=
  (digests_unique fullMap_reachable).1

/-! ## C14: `len` counts the stored entries -/

/-- C14. In every map reachable from `Initialize(c)`, `len` is the number of
entries on all bucket chains. A `Set` that returns true for a digest not yet
stored adds exactly one entry and one to `len`; a `Set` for a stored digest
adds neither; a `Set` that returns false changes nothing; a `Delete` that
returns either leaves both as they were or removes exactly one entry and takes
one from `len`. -/
theorem len_eq_entries {c : Nat} {m : Map V} (hr : Reachable c m) :
    m.len = m.entries.length
    ∧ (∀ fuel k v b m', m.Set fuel k v = .ok (b, m') →
        m'.len = m'.entries.length
        ∧ (b = true → (∀ n ∈ m.entries, n.hash ≠ fnv32a k) →
            m'.entries.length = m.entries.length + 1 ∧ m'.len = m.len + 1)
        ∧ ((∃ n ∈ m.entries, n.hash = fnv32a k) →
            m'.entries.length = m.entries.length ∧ m'.len = m.len)
        ∧ (b = false → m' = m))
    ∧ (∀ k r m', m.Delete k = .ok (r, m') →
        m'.len = m'.entries.length
        ∧ ((m'.entries.length = m.entries.length ∧ m'.len = m.len)
          ∨ (m'.entries.length + 1 = m.entries.length ∧ m'.len + 1 = m.len))) := by
  have hw := hr.wf
  refine ⟨hw.len_eq, ?_, ?_⟩
  · intro fuel k v b m' hs
    have hw' := (Reachable.set m m' fuel k v b hr hs).wf
    rcases Nat.eq_zero_or_pos c with h0 | hc
    · rw [Set_size_zero (by rw [hw.size_eq, h0])] at hs
      cases hs
    · obtain ⟨chain, hb⟩ := hw.bucket hc (fnv32a k)
      have hlen := hw.len_eq
      have hlen' := hw'.len_eq
      refine ⟨hlen', ?_⟩
      rcases hw.Set_ok hc hb hs with ⟨hg, _, hf, hm⟩ | ⟨⟨n, hg⟩, _, hm⟩ | ⟨hg, _, _, _, hm⟩
      · subst hm
        refine ⟨fun h => (by rw [hf] at h; cases h), fun _ => ⟨rfl, rfl⟩, fun _ => rfl⟩
      · have hl : m'.len = m.len := by rw [hm]
        refine ⟨fun _ hno => ?_, fun _ => ⟨by omega, hl⟩, fun h => ?_⟩
        · rw [(hw.lookup_none_iff hb).2 hno] at hg; cases hg
        · have := hw.Set_update hc hb hg fuel v
          rw [hs] at this
          simp only [Except.ok.injEq, Prod.mk.injEq] at this
          rw [h] at this
          cases this.1
      · have hl : m'.len = m.len + 1 := by
          rw [hm]
          exact Nat.mod_eq_of_lt (by have := hw.len_le; have := hw.cap_lt; omega)
        refine ⟨fun _ _ => ⟨by omega, hl⟩, ?_, fun h => ?_⟩
        · rintro ⟨n, hn, e⟩
          exact absurd e ((hw.lookup_none_iff hb).1 hg n hn)
        · have := hw.Set_ok hc hb hs
          rcases this with ⟨_, hl', _, _⟩ | ⟨⟨n, hn⟩, _, _⟩ | ⟨_, _, hb', _, _⟩
          · omega
          · rw [hg] at hn; cases hn
          · rw [h] at hb'; cases hb'
  · intro k r m' hd
    have hw' := (Reachable.delete m m' k r hr hd).wf
    rcases Nat.eq_zero_or_pos c with h0 | hc
    · rw [Delete_size_zero (by rw [hw.size_eq, h0])] at hd
      cases hd
    · obtain ⟨chain, hb⟩ := hw.bucket hc (fnv32a k)
      have hlen := hw.len_eq
      have hlen' := hw'.len_eq
      refine ⟨hlen', ?_⟩
      rcases hw.Delete_ok hc hb hd with ⟨_, _, rfl⟩ | ⟨_, _, _, _, _, _, _, _, hl, _⟩
      · exact Or.inl ⟨rfl, rfl⟩
      · exact Or.inr ⟨by omega, hl.symm⟩

/-- C14, at the full map that holds "key1" and "key2": `len` is 2, the number
of its entries. -/
theorem len_eq_entries_witness : fullMap.len = fullMap.entries.length :=
  (len_eq_entries fullMap_reachable).1

/-! ## C15: every entry sits in the bucket of its digest -/

/-- C15. In every map reachable from `Initialize(c)`, `c > 0`, every entry on
the chain of bucket `i` has as its hash the FNV-1a digest of its key, and
`hash % size == i`: `getHashAndIndex` of its key gives that hash and `i`. -/
theorem entry_in_own_bucket {c : Nat} {m : Map V} (hc : 0 < c) (hr : Reachable c m) :
    ∀ (i : Nat) (chain : List (node V)), m.buckets[i]? = some chain →
      ∀ n ∈ chain, n.hash = fnv32a n.key ∧ n.hash % m.size = i
        ∧ getHashAndIndex n.key m.size = .ok (n.hash, i) := by
  have hw := hr.wf
  intro i chain hb n hn
  obtain ⟨h1, h2⟩ := hw.hash_ok i chain hb n hn
  refine ⟨h1, by rw [hw.size_eq]; exact h2, ?_⟩
  rw [hw.size_eq, getHashAndIndex_pos n.key hc, ← h1, h2]

/-- C15, at the full map: the entry of "key2", digest 944401402, sits in
bucket 0 of 2. -/
theorem entry_in_own_bucket_witness :
    getHashAndIndex (ascii "key2") fullMap.size = .ok (944401402, 0) :=
  (entry_in_own_bucket (by decide) fullMap_reachable 0
    [{ hash := 944401402, key := ascii "key2", value := some 2 }] (by decide)
    { hash := 944401402, key := ascii "key2", value := some 2 } (by decide)).2.2

end Gosh

namespace Gosh

variable {V : Type}

/-! ## `Delete` on any map whose bucket index is valid -/

theorem deleteLoop_split (d : Nat) (l₁ : List (node V)) (x : node V) (l₂ : List (node V))
    (h₁ : ∀ n ∈ l₁, n.hash ≠ d) (hx : x.hash = d) :
    deleteLoop d (l₁ ++ x :: l₂) = some (x.value, l₁ ++ l₂) := by
  induction l₁ with
  | nil => simp [deleteLoop, hx]
  | cons a t ih =>
    have ha : a.hash ≠ d := h₁ a (List.mem_cons_self _ _)
    have := ih (fun n hn => h₁ n (List.mem_cons_of_mem _ hn))
    simp [deleteLoop, ha, this]

theorem Delete_eq_of {m : Map V} {k : Key} {chain : List (node V)} (hs : m.size ≠ 0)
    (hb : m.buckets[fnv32a k % m.size]? = some chain) :
    m.Delete k = .ok
      (match deleteLoop (fnv32a k) chain with
       | none => (none, m)
       | some (v, chain') =>
         (v, { m with buckets := m.buckets.set (fnv32a k % m.size) chain',
                      len := (m.len + 2 ^ 32 - 1) % 2 ^ 32 })) := by
  unfold Map.Delete
  rw [getHashAndIndex_pos k (Nat.pos_of_ne_zero hs)]
  simp only [hb]
  cases chain with
  | nil => simp [deleteLoop]
  | cons a t =>
    by_cases ha : a.hash = fnv32a k
    · simp [deleteLoop, ha]
    · cases hd : deleteLoop (fnv32a k) t with
      | none => simp [deleteLoop, ha, hd]
      | some p => simp [deleteLoop, ha, hd]

/-! ## C16: where `Set` puts a new entry -/

/-- C16 holds on the code only for chains of at most one entry. In a map
reachable from `Initialize(c)`, `c > 0`, with `len < size`, for a key `k` whose
digest no stored entry has: when the chain of the bucket of `k` holds at most one entry,
`Set(k, v)` returns true and the chain becomes the previous chain followed by
the new entry, every other bucket unchanged and `len` one higher; when the
chain holds two or more entries, `Set(k, v)` never returns. -/
theorem Set_append_to_chain {c : Nat} {m : Map V} (hc : 0 < c) (hr : Reachable c m)
    (hlt : m.len < m.size) (k : Key) (v : Option V)
    (hnew : ∀ n ∈ m.entries, n.hash ≠ fnv32a k) (chain : List (node V))
    (hb : m.buckets[fnv32a k % m.size]? = some chain) :
    (chain.length ≤ 1 → ∀ fuel, m.Set (fuel + 1) k v = .ok (true,
        { m with buckets :=
                   m.buckets.set (fnv32a k % m.size) (chain ++ [createNode (fnv32a k) k v]),
                 len := m.len + 1 }))
    ∧ (2 ≤ chain.length → ∀ fuel, m.Set fuel k v = .error .outOfFuel) := by
  have hw := hr.wf
  have hsz := hw.size_eq
  rw [hsz] at hb
  have hg := (hw.lookup_none_iff hb).2 hnew
  have hne : m.len ≠ c := by omega
  have hmod : (m.len + 1) % 2 ^ 32 = m.len + 1 :=
    Nat.mod_eq_of_lt (by have := hw.cap_lt; omega)
  constructor
  · intro hlen fuel
    rw [hw.Set_insert hc hb hg hne hlen fuel v, hmod, hsz]
  · intro hlen fuel
    exact hw.Set_diverge hc hb hg hne hlen fuel v

/-- C16, at the failing input: the map of capacity 3 that holds "a" and "b" in
bucket 1; `Set("d", 3)` has to append to that chain and does not return. -/
theorem Set_append_to_chain_witness :
    crowdedMap.Set 7 (ascii "d") (some 3) = .error .outOfFuel :=
  (Set_append_to_chain (by decide) crowdedMap_reachable (by decide) (ascii "d") (some 3)
    (by decide) (crowdedMap.buckets.getD 1 []) (by decide)).2 (by decide) 7

/-! ## C17: what `Delete` does to the chain -/

/-- C17 fails as stated, for every map: on the map `Initialize(0)` no chain
holds an entry with the digest of "key1", yet `Delete("key1")` does not return
nil: it ends in the divide-by-zero panic of `getHashAndIndex`. -/
theorem Delete_every_map_counterexample :
    (Initialize 0 : Map Nat).buckets = []
      ∧ (∀ n ∈ (Initialize 0 : Map Nat).entries, n.hash ≠ fnv32a (ascii "key1"))
      ∧ (Initialize 0 : Map Nat).Delete (ascii "key1") = .error .divideByZero
      ∧ (Initialize 0 : Map Nat).Delete (ascii "key1") ≠ .ok (none, Initialize 0) :=
  ⟨by decide, by decide, by decide, by decide⟩

/-- C17, amended. On every map whose `size` is not 0 and whose bucket of `k`
exists, `Delete(k)` returns. When no entry of the chain of that bucket has the
digest of `k`, it returns nil and the map is unchanged, `len` included. When
the chain is `l₁`, then an entry `x` with the digest, then `l₂`, and no entry of
`l₁` has the digest, it returns the value of `x`, the chain becomes `l₁`
followed by `l₂`, whether `x` was the head, in the middle or last, every other
bucket is unchanged and `len` is decremented. One of the two cases always
applies. -/
theorem Delete_chain (m : Map V) (k : Key) (chain : List (node V)) (hs : m.size ≠ 0)
    (hb : m.buckets[fnv32a k % m.size]? = some chain) :
    ((∀ n ∈ chain, n.hash ≠ fnv32a k) → m.Delete k = .ok (none, m))
    ∧ (∀ l₁ x l₂, chain = l₁ ++ x :: l₂ → (∀ n ∈ l₁, n.hash ≠ fnv32a k) →
        x.hash = fnv32a k →
        m.Delete k = .ok (x.value,
          { m with buckets := m.buckets.set (fnv32a k % m.size) (l₁ ++ l₂),
                   len := (m.len + 2 ^ 32 - 1) % 2 ^ 32 }))
    ∧ ((∃ n ∈ chain, n.hash = fnv32a k) →
        ∃ l₁ x l₂, chain = l₁ ++ x :: l₂ ∧ (∀ n ∈ l₁, n.hash ≠ fnv32a k)
          ∧ x.hash = fnv32a k)
    ∧ (∀ r m', m.Delete k = .ok (r, m') →
        m'.size = m.size ∧ m'.buckets.length = m.buckets.length
          ∧ ∀ j, j ≠ fnv32a k % m.size → m'.buckets[j]? = m.buckets[j]?) := by
  have hd := Delete_eq_of hs hb
  refine ⟨?_, ?_, ?_, ?_⟩
  · intro hno
    rw [hd, (deleteLoop_none_iff _ _).2 hno]
  · intro l₁ x l₂ e h₁ hx
    rw [hd, e, deleteLoop_split _ l₁ x l₂ h₁ hx]
  · rintro ⟨n, hn, e⟩
    cases hl : deleteLoop (fnv32a k) chain with
    | none => exact absurd e ((deleteLoop_none_iff _ _).1 hl n hn)
    | some p =>
      obtain ⟨v, chain'⟩ := p
      obtain ⟨l₁, x, l₂, e1, _, e3, _, e5⟩ := deleteLoop_some hl
      exact ⟨l₁, x, l₂, e1, e5, e3⟩
  · intro r m' hres
    rw [hd] at hres
    cases hl : deleteLoop (fnv32a k) chain with
    | none =>
      simp only [hl, Except.ok.injEq, Prod.mk.injEq] at hres
      rw [← hres.2]
      exact ⟨rfl, rfl, fun _ _ => rfl⟩
    | some p =>
      obtain ⟨v, chain'⟩ := p
      simp only [hl, Except.ok.injEq, Prod.mk.injEq] at hres
      rw [← hres.2]
      refine ⟨rfl, by simp, ?_⟩
      intro j hj
      simp only [List.getElem?_set]
      rw [if_neg (fun e => hj e.symm)]

/-- C17, amended, at the map of capacity 3 whose bucket 1 holds "a" and then "b":
`Delete("b")` removes the last entry of the chain, returns its value 2 and
leaves the map that holds only "a". -/
theorem Delete_chain_witness :
    crowdedMap.Delete (ascii "b") = .ok (some 2, oneLetterMap) :=
  (Delete_chain crowdedMap (ascii "b") (crowdedMap.buckets.getD 1 []) (by decide)
    (by decide)).2.1 [{ hash := 3826002220, key := ascii "a", value := some 1 }]
      { hash := 3876335077, key := ascii "b", value := some 2 } [] (by decide) (by decide)
      (by decide)

/-! ## C18: `Delete` undoes an inserting `Set` -/

/-- C18. In a map `m` reachable from `Initialize(c)`, `c > 0`, with
`len < size`, for a key `k` whose digest no stored entry has: whenever
`Set(k, v)` returns, `Delete(k)` on the map it leaves returns `v` and leaves
`m` itself: the same `len`, the same `size`, the same chains in the same
order. -/
theorem Set_then_Delete {c : Nat} {m : Map V} (hc : 0 < c) (hr : Reachable c m)
    (hlt : m.len < m.size) (k : Key) (v : Option V)
    (hnew : ∀ n ∈ m.entries, n.hash ≠ fnv32a k) :
    ∀ fuel b m', m.Set fuel k v = .ok (b, m') → m'.Delete k = .ok (v, m) := by
  intro fuel b m' hs
  have hw := hr.wf
  have hsz := hw.size_eq
  obtain ⟨chain, hb⟩ := hw.bucket hc (fnv32a k)
  have hg := (hw.lookup_none_iff hb).2 hnew
  have hne : m.len ≠ c := by omega
  have hi : fnv32a k % c < m.buckets.length := (List.getElem?_eq_some.1 hb).1
  rcases hw.Set_ok hc hb hs with ⟨_, hl, _, _⟩ | ⟨⟨n, hn⟩, _, _⟩ | ⟨_, _, _, _, rfl⟩
  · exact absurd hl hne
  · rw [hg] at hn; cases hn
  · have hmod : (m.len + 1) % 2 ^ 32 = m.len + 1 :=
      Nat.mod_eq_of_lt (by have := hw.cap_lt; omega)
    have hback : (m.len + 1 + 2 ^ 32 - 1) % 2 ^ 32 = m.len := by
      have : m.len + 1 + 2 ^ 32 - 1 = m.len + 2 ^ 32 := by omega
      rw [this, Nat.add_mod_right]
      exact Nat.mod_eq_of_lt (by have := hw.cap_lt; omega)
    have hrest := (Delete_chain
      ({ m with buckets :=
                  m.buckets.set (fnv32a k % c) (chain ++ [createNode (fnv32a k) k v]),
                len := (m.len + 1) % 2 ^ 32 } : Map V) k
      (chain ++ [createNode (fnv32a k) k v]) (by simp only [hsz]; omega)
      (by simp only [hsz]; simp [hi])).2.1 chain (createNode (fnv32a k) k v) [] rfl
      ((getValue_none_iff _ _).1 hg) rfl
    rw [hrest]
    have hm : ∀ (L : Nat) (B : List (List (node V))), L = m.len → B = m.buckets →
        ({ len := L, size := m.size, buckets := B } : Map V) = m := by
      intro L B hL hB
      subst hL hB
      rfl
    refine congrArg (fun x => Except.ok (v, x)) (hm _ _ ?_ ?_)
    · show ((m.len + 1) % 2 ^ 32 + 2 ^ 32 - 1) % 2 ^ 32 = m.len
      rw [hmod]
      exact hback
    · show (m.buckets.set (fnv32a k % c) (chain ++ [createNode (fnv32a k) k v])).set
          (fnv32a k % m.size) (chain ++ []) = m.buckets
      rw [hsz, List.set_set, List.append_nil]
      apply List.ext_getElem?
      intro j
      rw [List.getElem?_set]
      by_cases hj : fnv32a k % c = j
      · subst hj; simp [hi, hb]
      · simp [hj]

/-- C18, at the map that holds only "key1": `Set("key2", 2)` gives the full
map, and `Delete("key2")` on the full map returns 2 and gives the first map
back. -/
theorem Set_then_Delete_witness :
    fullMap.Delete (ascii "key2") = .ok (some 2, oneKeyMap) :=
  Set_then_Delete (by decide) oneKeyMap_reachable (by decide) (ascii "key2") (some 2)
    (by decide) 1 true fullMap (by decide)

/-! ## C19: other keys are not affected -/

/-- C19. In a map reachable from `Initialize(c)`, `c > 0`, for keys `k₁` and
`k₂` with different digests: a `Set(k₁, v)` that returns and a `Delete(k₁)`
both leave the result of `Get(k₂)` as it was; and `Delete(k₁)` always
returns. -/
theorem Get_frame {c : Nat} {m : Map V} (hc : 0 < c) (hr : Reachable c m)
    (k₁ k₂ : Key) (hne : fnv32a k₁ ≠ fnv32a k₂) :
    (∀ fuel v b m', m.Set fuel k₁ v = .ok (b, m') → m'.Get k₂ = m.Get k₂)
    ∧ (∀ r m', m.Delete k₁ = .ok (r, m') → m'.Get k₂ = m.Get k₂)
    ∧ ∃ r m', m.Delete k₁ = .ok (r, m') := by
  have hw := hr.wf
  refine ⟨?_, ?_, ?_⟩
  · intro fuel v b m' hs
    exact hw.Get_after_Set_other hc hs (fun e => hne e.symm)
  · intro r m' hd
    exact hw.Get_after_Delete_other hc hd (fun e => hne e.symm)
  · obtain ⟨chain, hb⟩ := hw.bucket hc (fnv32a k₁)
    exact ⟨_, _, hw.Delete_eq hc hb⟩

/-- C19, at the map that holds only "key1": `Set("key2", 2)` gives the full
map, on which `Get("key1")` returns what it returned before. -/
theorem Get_frame_witness :
    fullMap.Get (ascii "key1") = oneKeyMap.Get (ascii "key1") :=
  (Get_frame (by decide) oneKeyMap_reachable (ascii "key2") (ascii "key1")
    (by decide)).1 1 (some 2) true fullMap (by decide)

/-! ## C20: the bucket index is always valid -/

theorem WF.Set_ok_or_outOfFuel {c : Nat} {m : Map V} (hw : WF c m) (hc : 0 < c)
    (fuel : Nat) (k : Key) (v : Option V) :
    (∃ b m', m.Set fuel k v = .ok (b, m')) ∨ m.Set fuel k v = .error .outOfFuel := by
  obtain ⟨chain, hb⟩ := hw.bucket hc (fnv32a k)
  cases hg : getValueFromBucketChain chain (fnv32a k) with
  | some n => exact Or.inl ⟨_, _, hw.Set_update hc hb hg fuel v⟩
  | none =>
    by_cases hl : m.len = c
    · exact Or.inl ⟨_, _, hw.Set_full hc hb hg hl fuel v⟩
    · match chain, hb, hg with
      | [], hb, _ => exact Or.inl ⟨_, _, hw.Set_insert_nil hc hb hl fuel v⟩
      | [a], hb, hg =>
        cases fuel with
        | zero => exact Or.inr (hw.Set_zero_fuel hc hb hg hl rfl v)
        | succ f => exact Or.inl ⟨_, _, hw.Set_insert hc hb hg hl (by simp) f v⟩
      | a :: b :: t, hb, hg =>
        exact Or.inr (hw.Set_diverge hc hb hg hl (by simp) fuel v)

/-- C20. In a map reachable from `Initialize(c)`, `c > 0`, `size` is `c` and
there are exactly `c` bucket slots, so for every key the index
`digest % size` that `getHashAndIndex` returns is below the number of slots:
`Set`, `Get`, `Delete` and `addNode` never divide by zero and never index out
of range. `Get` and `Delete` return; `Set` returns or runs out of steps. -/
theorem index_valid {c : Nat} {m : Map V} (hc : 0 < c) (hr : Reachable c m) :
    m.size = c ∧ m.buckets.length = c
    ∧ ∀ k, fnv32a k % m.size < m.buckets.length
        ∧ getHashAndIndex k m.size = .ok (fnv32a k, fnv32a k % m.size)
        ∧ (∀ fuel v, m.Set fuel k v ≠ .error .divideByZero
            ∧ m.Set fuel k v ≠ .error .indexOutOfRange)
        ∧ (∃ r, m.Get k = .ok r)
        ∧ (∃ r m', m.Delete k = .ok (r, m'))
        ∧ (∀ fuel n, m.addNode fuel (fnv32a k % m.size) n ≠ .error .divideByZero
            ∧ m.addNode fuel (fnv32a k % m.size) n ≠ .error .indexOutOfRange) := by
  have hw := hr.wf
  refine ⟨hw.size_eq, hw.length_eq, ?_⟩
  intro k
  obtain ⟨chain, hb⟩ := hw.bucket hc (fnv32a k)
  rw [hw.size_eq]
  refine ⟨by rw [hw.length_eq]; exact Nat.mod_lt _ hc, getHashAndIndex_pos k hc, ?_,
    ⟨_, hw.Get_eq hc hb⟩, ⟨_, _, hw.Delete_eq hc hb⟩, ?_⟩
  · intro fuel v
    rcases hw.Set_ok_or_outOfFuel hc fuel k v with ⟨b, m', h⟩ | h
    · rw [h]; exact ⟨fun e => (by cases e), fun e => (by cases e)⟩
    · rw [h]; exact ⟨fun e => (by cases e), fun e => (by cases e)⟩
  · intro fuel n
    unfold Map.addNode
    rw [hb]
    cases chain with
    | nil => exact ⟨fun e => (by cases e), fun e => (by cases e)⟩
    | cons a t =>
      simp only
      cases addNodeLoop fuel a t n with
      | none => exact ⟨fun e => (by cases e), fun e => (by cases e)⟩
      | some ch => exact ⟨fun e => (by cases e), fun e => (by cases e)⟩

/-- C20, at the full map of capacity 2: the index of "key3" is below the
number of bucket slots. -/
theorem index_valid_witness :
    fnv32a (ascii "key3") % fullMap.size < fullMap.buckets.length :=
  ((index_valid (by decide) fullMap_reachable).2.2 (ascii "key3")).1

end Gosh
